import Mathlib

/-!
Verification of the NeuroMorphoVis morphology-skeleton routines.

This development shallowly embeds the pure algorithmic parts of the
repository: the dendrogram X/Y-coordinate layout
(`nmv/skeleton/ops/skeleton_dendrogram_ops.py`), the poly-line tree
construction of `DisconnectedSectionsBuilder`
(`nmv/builders/morphology/disconnected_sections_builder.py`), the arbor
surface-area aggregation
(`neuromorphovis/analysis/kernels/arbor/area_ops.py`), the
dependency-installation retry logic of the plotting helpers
(`nmv/analysis/plotting/distributions.py`), and the HDF5 vasculature
loader (`src/scripts/vasculature/vasculature_loader.py`).

Python floats are modelled by `ℚ`; the mutable `dendrogram_x` /
`dendrogram_y` attributes of section objects are modelled by maps from
tree positions to `Option ℚ` (with `none` playing the role of Python's
`None`).  A tree position is a list of child indices in reversed order:
`[]` is the arbor root and `j :: p` is the `j`-th child of the section at
position `p`, so taking the Python `section.parent` pointer is exactly
`List.tail`.
-/

namespace NMV

/-- A morphology section (class `Section` of the repository).  Only the
fields the verified routines touch are kept: the list of child sections,
the value returned by `compute_path_length()` and the per-section surface
area.  The latter two methods are not part of the given sources, so they
are modelled as per-section data (see `Section.compute_path_length`). -/
inductive Section : Type where
  | mk (pathLength : ℚ) (area : ℚ) (children : List Section)

/-- The children list of a section. -/
def Section.children : Section → List Section
  | .mk _ _ cs => cs

/-- Modelled from the spec: `Section.compute_path_length()` ("tree of
sections/samples with radius, branching order, path length") is not among
the given sources; it is a pure per-section quantity, modelled as data
stored in the node. -/
def Section.compute_path_length : Section → ℚ
  | .mk pl _ _ => pl

/-- Modelled from the spec: the per-section surface area collected by
`compute_sections_surface_areas_from_segments`, which is not among the
given sources; modelled as data stored in the node. -/
def Section.sectionArea : Section → ℚ
  | .mk _ a _ => a

/-- Modelled from the spec: `Section.is_leaf()` tests whether the section
has no child sections. -/
def Section.is_leaf (s : Section) : Bool := s.children.isEmpty

/-- A tree position in reversed (deepest-index-first) order. -/
abbrev Pos := List ℕ

/-- The `dendrogram_x` (or `dendrogram_y`) attributes of all sections of
an arbor, as a map from positions to optional rationals. -/
abbrev XMap := Pos → Option ℚ

/-- Pointwise update of an attribute map. -/
def updF (s : XMap) (p : Pos) (v : ℚ) : XMap :=
  fun q => if q = p then some v else s q

/-- Look up the section at a root-first path of child indices. -/
def subtreeAtRF : Section → List ℕ → Option Section
  | t, [] => some t
  | t, j :: q =>
    match t.children.get? j with
    | none => none
    | some c => subtreeAtRF c q

/-- The sum of the `dendrogram_x` values of the first `n` children of the
section at position `p` (the loop body of
`compute_dendrogram_x_coordinates_for_parents`); `none` as soon as any
child's `dendrogram_x` is `None`. -/
def childXSum (s : XMap) (p : Pos) : ℕ → Option ℚ
  | 0 => some 0
  | n + 1 =>
    match childXSum s p n, s (n :: p) with
    | some acc, some v => some (acc + v)
    | _, _ => none

/-- `compute_dendrogram_x_coordinates_for_parents` of
`skeleton_dendrogram_ops.py` (lines 90-128): starting from the section at
the given position, walk up towards the root; at each step, if every
child of the parent has a computed `dendrogram_x`, store their arithmetic
mean in the parent and continue from the parent, otherwise return
immediately.  Position `[]` is the arbor root, whose `parent` is `None`,
so the walk stops there. -/
def compute_dendrogram_x_coordinates_for_parents (t : Section) :
    Pos → XMap → XMap
  | [], s => s
  | _ :: p, s =>
    match subtreeAtRF t p.reverse with
    | none => s
    | some parentNode =>
      match childXSum s p parentNode.children.length with
      | none => s
      | some total =>
        compute_dendrogram_x_coordinates_for_parents t p
          (updF s p (total / (parentNode.children.length : ℚ)))

mutual

/-- `get_subtree_leaves` of `skeleton_dendrogram_ops.py` (lines 40-58):
collect the positions of the leaves of the subtree in depth-first order
(the position of each leaf is relative to the subtree root). -/
def get_subtree_leaves : Section → List Pos
  | .mk _ _ cs =>
    (if cs.isEmpty then [[]] else []) ++ get_subtree_leaves_list cs 0

/-- The `for child in section.children` loop of `get_subtree_leaves`,
starting at child index `j`. -/
def get_subtree_leaves_list : List Section → ℕ → List Pos
  | [], _ => []
  | c :: rest, j =>
    (get_subtree_leaves c).map (fun q => q ++ [j]) ++
      get_subtree_leaves_list rest (j + 1)

end

/-- `get_arbor_leaves` of `skeleton_dendrogram_ops.py` (lines 64-84):
an empty list for a `None` arbor, else the depth-first leaves. -/
def get_arbor_leaves : Option Section → List Pos
  | none => []
  | some t => get_subtree_leaves t

/-- The `for i, leaf in enumerate(leaves): leaf.dendrogram_x = i * delta`
loop of `compute_arbor_dendrogram`, with `i` starting at the given
index. -/
def assignLeafX (delta : ℚ) : List Pos → ℕ → XMap → XMap
  | [], _, s => s
  | p :: ps, i, s => assignLeafX delta ps (i + 1) (updF s p ((i : ℚ) * delta))

/-- The `for leaf in leaves: compute_dendrogram_x_coordinates_for_parents(leaf)`
loop of `compute_arbor_dendrogram`. -/
def propagateAllLeaves (t : Section) (ps : List Pos) (s : XMap) : XMap :=
  ps.foldl (fun acc p => compute_dendrogram_x_coordinates_for_parents t p acc) s

/-- The dendrogram coordinates of all sections of an arbor: the mutable
`dendrogram_x` and `dendrogram_y` attributes. -/
structure DendroState where
  x : XMap
  y : XMap

mutual

/-- `compute_dendrogram_y_coordinates_for_children` of
`skeleton_dendrogram_ops.py` (lines 134-141): set the `dendrogram_y` of
the section at `pos` to its `compute_path_length()` and recurse into the
children. -/
def compute_dendrogram_y_coordinates_for_children :
    Section → Pos → DendroState → DendroState
  | .mk pl ar cs, pos, s =>
    compute_dendrogram_y_children_list cs 0 pos
      { s with
        y := updF s.y pos (Section.compute_path_length (.mk pl ar cs)) }

/-- The `for child in section.children` loop of
`compute_dendrogram_y_coordinates_for_children`, starting at child index
`j`. -/
def compute_dendrogram_y_children_list :
    List Section → ℕ → Pos → DendroState → DendroState
  | [], _, _, s => s
  | c :: rest, j, pos, s =>
    compute_dendrogram_y_children_list rest (j + 1) pos
      (compute_dendrogram_y_coordinates_for_children c (j :: pos) s)

end

/-- `compute_arbor_dendrogram` of `skeleton_dendrogram_ops.py`
(lines 147-170) for a non-`None` arbor: number the depth-first leaves
with X-coordinates `i * delta`, propagate X-coordinates up from every
leaf, then fill in the Y-coordinates of the whole tree. -/
def compute_arbor_dendrogram (arbor : Section) (delta : ℚ)
    (s : DendroState) : DendroState :=
  let leaves := get_arbor_leaves (some arbor)
  let s1 : DendroState := { s with x := assignLeafX delta leaves 0 s.x }
  let s2 : DendroState := { s1 with x := propagateAllLeaves arbor leaves s1.x }
  compute_dendrogram_y_coordinates_for_children arbor [] s2

mutual

/-- Number of leaves of a section's subtree. -/
def nLeaves : Section → ℕ
  | .mk _ _ cs => if cs.isEmpty then 1 else nLeavesList cs

/-- Total number of leaves of a list of subtrees. -/
def nLeavesList : List Section → ℕ
  | [] => 0
  | c :: rest => nLeaves c + nLeavesList rest

end

/-- Number of leaves contained in the first `j` children. -/
def leavesBefore (cs : List Section) (j : ℕ) : ℕ := nLeavesList (cs.take j)

mutual

/-- Reference X-value of a section whose leftmost leaf is the `off`-th
leaf of the arbor: `off * delta` for a leaf, and the arithmetic mean of
the children's reference X-values otherwise. -/
def specXNode (delta : ℚ) (off : ℕ) : Section → ℚ
  | .mk _ _ cs =>
    if cs.isEmpty then (off : ℚ) * delta
    else specXSumList delta off cs / (cs.length : ℚ)

/-- Sum of the reference X-values of a list of sibling subtrees whose
leftmost leaf is the `off`-th leaf of the arbor. -/
def specXSumList (delta : ℚ) (off : ℕ) : List Section → ℚ
  | [] => 0
  | c :: rest => specXNode delta off c + specXSumList delta (off + nLeaves c) rest

end

/-- Look up the section at a root-first path together with the arbor-wide
index of its leftmost leaf, starting the count at `off`. -/
def nodeOffAtRF : ℕ → Section → List ℕ → Option (Section × ℕ)
  | off, t, [] => some (t, off)
  | off, t, j :: q =>
    match t.children.get? j with
    | none => none
    | some c => nodeOffAtRF (off + leavesBefore t.children j) c q

/-- Reference X-value of the section at (reversed) position `p`. -/
def specAt (delta : ℚ) (t : Section) (p : Pos) : Option ℚ :=
  (nodeOffAtRF 0 t p.reverse).map (fun no => specXNode delta no.2 no.1)

/-- An attribute map agrees with the reference X-values wherever it is
defined. -/
def SpecOk (delta : ℚ) (t : Section) (s : XMap) : Prop :=
  ∀ p v, s p = some v → specAt delta t p = some v

mutual

/-- All (reversed) positions of a section's subtree, relative to its
root. -/
def allPos : Section → List Pos
  | .mk _ _ cs => [] :: allPosList cs 0

/-- All positions contributed by a list of sibling subtrees starting at
child index `j`. -/
def allPosList : List Section → ℕ → List Pos
  | [], _ => []
  | c :: rest, j =>
    (allPos c).map (fun q => q ++ [j]) ++ allPosList rest (j + 1)

end

/-- Sum of `f 0 + f 1 + ... + f (m - 1)`, accumulated from the top. -/
def sumBelow (f : ℕ → ℚ) : ℕ → ℚ
  | 0 => 0
  | m + 1 => sumBelow f m + f m

/-- The `k`-th depth-first leaf of a subtree whose leftmost leaf is the
`off`-th leaf of the arbor sits at arbor-leaf index `off + k`. -/
def LeafIndexProp (t : Section) : Prop :=
  ∀ (off k : ℕ) (lf : Pos), (get_subtree_leaves t).get? k = some lf →
    ∃ n, nodeOffAtRF off t lf.reverse = some (n, off + k) ∧ n.children = []

/-- Totality property for a subtree sitting at position `r` of the arbor
`t`: once all its leaves carry a `dendrogram_x`, propagating up from each
of its leaves in depth-first order computes a `dendrogram_x` for all of
its sections, and the walk of the last leaf continues above the subtree
root. -/
def TotProp (t tsub : Section) : Prop :=
  ∀ (r : Pos) (s : XMap),
    subtreeAtRF t r.reverse = some tsub →
    (∀ lf ∈ get_subtree_leaves tsub, (s (lf ++ r)).isSome) →
    ∃ smid,
      propagateAllLeaves t
          ((get_subtree_leaves tsub).map (fun q => q ++ r)) s =
        compute_dendrogram_x_coordinates_for_parents t r smid ∧
      (∀ q ∈ allPos tsub, (smid (q ++ r)).isSome) ∧
      (∀ q, (s q).isSome → (smid q).isSome)

/-- A poly-line as appended by
`DisconnectedSectionsBuilder.construct_tree_poly_lines`
(`disconnected_sections_builder.py` lines 131-190): `nameTag` is the pair
that the source formats as `'%s_%d' % (prefix, branching_order)`, and
`materialIndex` the index computed from the highlight flag.  The
geometric samples come from `nmv.skeleton.get_section_poly_line`, which
is Blender-coupled code outside the sources, and are not modelled;
`branchingOrder` records the order used to build the name. -/
structure PolyLine where
  nameTag : String × ℕ
  materialIndex : ℕ
  branchingOrder : ℕ
deriving DecidableEq

mutual

/-- The body of
`DisconnectedSectionsBuilder.construct_tree_poly_lines`
(`disconnected_sections_builder.py` lines 131-190) for a non-`None`
root, with the mutated `poly_lines_list` threaded as an accumulator: the
branching order is incremented, the call returns once it exceeds
`max_branching_order`, the material index is
`material_start_index + branching_order % 2` when `highlight` else
`GRAY_MATERIAL_INDEX` (the parameter `grayIdx`, since `nmv.enums` is not
among the sources), one poly-line is appended, and the children are
processed in order (a child from a children list is never `None`, so
the recursive call is the non-`None` body again).
`max_branching_order` defaults to `nmv.consts.Math.INFINITY` in the
source; here it is an explicit argument. -/
def construct_tree_poly_lines_section (grayIdx : ℕ) (pre : String)
    (materialStartIndex : ℕ) (highlight : Bool) (maxBranchingOrder : ℕ) :
    Section → List PolyLine → ℕ → List PolyLine
  | .mk _ _ cs, acc, branchingOrder =>
    let bo := branchingOrder + 1
    if bo > maxBranchingOrder then acc
    else
      let materialIndex :=
        if highlight then materialStartIndex + bo % 2 else grayIdx
      let poly_line : PolyLine :=
        { nameTag := (pre, bo), materialIndex := materialIndex,
          branchingOrder := bo }
      construct_tree_poly_lines_children grayIdx pre materialStartIndex
        highlight maxBranchingOrder cs (acc ++ [poly_line]) bo

/-- The `for child in root.children` loop of
`construct_tree_poly_lines`. -/
def construct_tree_poly_lines_children (grayIdx : ℕ) (pre : String)
    (materialStartIndex : ℕ) (highlight : Bool) (maxBranchingOrder : ℕ) :
    List Section → List PolyLine → ℕ → List PolyLine
  | [], acc, _ => acc
  | c :: rest, acc, bo =>
    construct_tree_poly_lines_children grayIdx pre materialStartIndex
      highlight maxBranchingOrder rest
      (construct_tree_poly_lines_section grayIdx pre materialStartIndex
        highlight maxBranchingOrder c acc bo) bo

end

/-- `DisconnectedSectionsBuilder.construct_tree_poly_lines`: a `None`
root returns the poly-lines list unchanged, otherwise the non-`None`
body runs. -/
def construct_tree_poly_lines (grayIdx : ℕ) (pre : String)
    (materialStartIndex : ℕ) (highlight : Bool) (maxBranchingOrder : ℕ) :
    Option Section → List PolyLine → ℕ → List PolyLine
  | none, acc, _ => acc
  | some root, acc, branchingOrder =>
    construct_tree_poly_lines_section grayIdx pre materialStartIndex
      highlight maxBranchingOrder root acc branchingOrder

mutual

/-- The number of sections of the tree whose (incremented) branching
order does not exceed `maxBranchingOrder`; pruning at a section prunes
its whole subtree, exactly as the recursion of
`construct_tree_poly_lines` does. -/
def countSectionsUpToSection (maxBranchingOrder : ℕ) : Section → ℕ → ℕ
  | .mk _ _ cs, branchingOrder =>
    if branchingOrder + 1 > maxBranchingOrder then 0
    else 1 + countSectionsUpToList maxBranchingOrder cs (branchingOrder + 1)

/-- Section count contributed by a list of sibling subtrees. -/
def countSectionsUpToList (maxBranchingOrder : ℕ) : List Section → ℕ → ℕ
  | [], _ => 0
  | c :: rest, bo =>
    countSectionsUpToSection maxBranchingOrder c bo +
      countSectionsUpToList maxBranchingOrder rest bo

end

/-- Section count of an optional tree (`None` contributes nothing). -/
def countSectionsUpTo (maxBranchingOrder : ℕ) : Option Section → ℕ → ℕ
  | none, _ => 0
  | some t, bo => countSectionsUpToSection maxBranchingOrder t bo

/-- Python evaluates the default argument `poly_lines_list=[]` of
`construct_tree_poly_lines` once, at function definition time; every
call that omits the argument appends to that same list object.  This is
the effect of two successive calls that both omit `poly_lines_list`: the
second call receives the list exactly as the first call left it. -/
def construct_tree_poly_lines_twice_shared_default (grayIdx : ℕ)
    (pre : String) (msi : ℕ) (highlight : Bool) (maxB : ℕ)
    (t1 t2 : Option Section) : List PolyLine :=
  construct_tree_poly_lines grayIdx pre msi highlight maxB t2
    (construct_tree_poly_lines grayIdx pre msi highlight maxB t1 [] 0) 0

mutual

/-- Modelled from the spec: `nmv.skeleton.ops.apply_operation_to_arbor`
and `nmv.analysis.compute_sections_surface_areas_from_segments`
(referenced by `area_ops.py` but not among the sources) traverse every
section of the arbor and append each section's surface area to the
collecting list ("surface-area/length aggregation ... simple tree walks
and aggregations").  This function returns the collected per-section
surface areas in traversal order. -/
def collectSectionsSurfaceAreasSection : Section → List ℚ
  | .mk pl a cs =>
    Section.sectionArea (.mk pl a cs) :: collectSectionsSurfaceAreasList cs

/-- The child traversal of `collectSectionsSurfaceAreasSection`. -/
def collectSectionsSurfaceAreasList : List Section → List ℚ
  | [] => []
  | c :: rest =>
    collectSectionsSurfaceAreasSection c ++
      collectSectionsSurfaceAreasList rest

end

/-- The per-section surface areas collected over an optional arbor: a
`None` arbor collects nothing. -/
def collectSectionsSurfaceAreas : Option Section → List ℚ
  | none => []
  | some t => collectSectionsSurfaceAreasSection t

/-- `compute_arbor_total_surface_area` of
`neuromorphovis/analysis/kernels/arbor/area_ops.py` (lines 26-54):
collect the per-section surface areas of the arbor via
`apply_operation_to_arbor`, then sum them with a running total that
starts at `0.0`. -/
def compute_arbor_total_surface_area (arbor : Option Section) : ℚ :=
  let sections_surface_areas := collectSectionsSurfaceAreas arbor
  sections_surface_areas.foldl (fun acc a => acc + a) 0

/-- A store of Python heap objects of type `α`: object identity is a
natural-number reference, `next` is the next fresh reference. -/
structure Store (α : Type) where
  next : ℕ
  mem : ℕ → α

/-- Read the object behind a reference. -/
def Store.read {α : Type} (st : Store α) (r : ℕ) : α := st.mem r

/-- Mutate the object behind a reference in place. -/
def Store.write {α : Type} (st : Store α) (r : ℕ) (v : α) : Store α :=
  { st with mem := fun r' => if r' = r then v else st.mem r' }

/-- Allocate a fresh object (the effect of `copy.deepcopy`: an equal
value behind a new reference sharing nothing with the original). -/
def Store.alloc {α : Type} (st : Store α) (v : α) : Store α × ℕ :=
  ({ next := st.next + 1,
     mem := fun r' => if r' = st.next then v else st.mem r' }, st.next)

/-- The state of a `DisconnectedSectionsBuilder`: the references to its
own deep-copied morphology and options objects. -/
structure BuilderState where
  morphRef : ℕ
  optionsRef : ℕ

/-- `DisconnectedSectionsBuilder.__init__`
(`disconnected_sections_builder.py` lines 47-91): store
`self.morphology = copy.deepcopy(morphology)` and
`self.options = copy.deepcopy(options)` — read the caller's objects and
place equal values behind fresh references. -/
def DisconnectedSectionsBuilder_init {μ ω : Type}
    (hm : Store μ) (ho : Store ω) (rm ro : ℕ) :
    Store μ × Store ω × BuilderState :=
  let am := hm.alloc (hm.read rm)
  let ao := ho.alloc (ho.read ro)
  (am.1, ao.1, { morphRef := am.2, optionsRef := ao.2 })

/-- Modelled from the spec: one drawing operation of the builder
(`draw_morphology_skeleton`, `draw_arbors_with_individual_colors`,
`draw_highlighted_arbor`, `render_highlighted_arbors`).  Each of these
mutates only the builder's own `self.morphology` and `self.options`
(radius updates via `update_arbors_radii`, resampling via
`resample_skeleton_sections`, `adjust_to_analysis_mode`, shader and
radii option changes); the delegated functions are not among the
sources, so an operation is an arbitrary update `f`/`g` applied at the
builder's two references. -/
def builderOp {μ ω : Type} (f : μ → μ) (g : ω → ω) (b : BuilderState)
    (st : Store μ × Store ω) : Store μ × Store ω :=
  (st.1.write b.morphRef (f (st.1.read b.morphRef)),
   st.2.write b.optionsRef (g (st.2.read b.optionsRef)))

/-- A sequence of builder drawing operations run in order. -/
def builderOps {μ ω : Type} (ops : List ((μ → μ) × (ω → ω)))
    (b : BuilderState) (st : Store μ × Store ω) : Store μ × Store ω :=
  ops.foldl (fun st' fg => builderOp fg.1 fg.2 b st') st

/-- Outcome of a Python `import` statement for one package. -/
inductive ImportOutcome : Type where
  | ok
  | moduleNotFoundError
  | otherError
deriving DecidableEq

/-- The import environment: what importing each package does. -/
structure PyEnv where
  importResult : String → ImportOutcome

/-- One `try: import pkg // except ModuleNotFoundError:
nmv.utilities.pip_wheel(package_name=pkg)` block of `distributions.py`.
`pip` models `nmv.utilities.pip_wheel` (not among the sources) as an
arbitrary environment transformation.  Returns the resulting
environment together with the installation attempts made, or the
exception that propagates. -/
def tryImportInstall (pip : PyEnv → String → PyEnv) (env : PyEnv)
    (pkg : String) : Except String (PyEnv × List String) :=
  match env.importResult pkg with
  | .ok => .ok (env, [])
  | .moduleNotFoundError => .ok (pip env pkg, [pkg])
  | .otherError => .error pkg

/-- A bare `import pkg`: any failure propagates. -/
def plainImport (env : PyEnv) (pkg : String) : Except String PyEnv :=
  match env.importResult pkg with
  | .ok => .ok env
  | _ => .error pkg

/-- The environment after one try/except-install block, when the block
does not propagate an exception. -/
def afterBlock (pip : PyEnv → String → PyEnv) (env : PyEnv)
    (pkg : String) : PyEnv :=
  match env.importResult pkg with
  | .moduleNotFoundError => pip env pkg
  | _ => env

/-- The installation attempts of one try/except-install block. -/
def blockEvents (env : PyEnv) (pkg : String) : List String :=
  match env.importResult pkg with
  | .moduleNotFoundError => [pkg]
  | _ => []

/-- The dependency-handling prologue of `plot_per_arbor_result`
(`distributions.py` lines 52-75): try/except-install blocks for numpy,
matplotlib and seaborn, then the unconditional imports `import numpy`,
`import seaborn`, `import matplotlib.pyplot`,
`from matplotlib import font_manager` (the latter two import the
`matplotlib` package).  Returns the outcome (`.error pkg` models the
exception raised when importing `pkg` propagates) and the list of
installation attempts made before returning or raising. -/
def plot_per_arbor_result_prologue (pip : PyEnv → String → PyEnv)
    (env0 : PyEnv) : Except String Unit × List String :=
  match tryImportInstall pip env0 "numpy" with
  | .error p => (.error p, [])
  | .ok (env1, e1) =>
    match tryImportInstall pip env1 "matplotlib" with
    | .error p => (.error p, e1)
    | .ok (env2, e2) =>
      match tryImportInstall pip env2 "seaborn" with
      | .error p => (.error p, e1 ++ e2)
      | .ok (env3, e3) =>
        let evs := e1 ++ e2 ++ e3
        match plainImport env3 "numpy" with
        | .error p => (.error p, evs)
        | .ok _ =>
          match plainImport env3 "seaborn" with
          | .error p => (.error p, evs)
          | .ok _ =>
            match plainImport env3 "matplotlib" with
            | .error p => (.error p, evs)
            | .ok _ =>
              match plainImport env3 "matplotlib" with
              | .error p => (.error p, evs)
              | .ok _ => (.ok (), evs)

/-- The dependency-handling prologue of `plot_per_arbor_range`
(`distributions.py` lines 247-275): try/except-install blocks for
numpy, matplotlib, seaborn and pandas, then the unconditional imports
`import numpy`, `import seaborn`, `from matplotlib import pyplot`,
`from matplotlib import font_manager` — pandas is never imported
again. -/
def plot_per_arbor_range_prologue (pip : PyEnv → String → PyEnv)
    (env0 : PyEnv) : Except String Unit × List String :=
  match tryImportInstall pip env0 "numpy" with
  | .error p => (.error p, [])
  | .ok (env1, e1) =>
    match tryImportInstall pip env1 "matplotlib" with
    | .error p => (.error p, e1)
    | .ok (env2, e2) =>
      match tryImportInstall pip env2 "seaborn" with
      | .error p => (.error p, e1 ++ e2)
      | .ok (env3, e3) =>
        match tryImportInstall pip env3 "pandas" with
        | .error p => (.error p, e1 ++ e2 ++ e3)
        | .ok (env4, e4) =>
          let evs := e1 ++ e2 ++ e3 ++ e4
          match plainImport env4 "numpy" with
          | .error p => (.error p, evs)
          | .ok _ =>
            match plainImport env4 "seaborn" with
            | .error p => (.error p, evs)
            | .ok _ =>
              match plainImport env4 "matplotlib" with
              | .error p => (.error p, evs)
              | .ok _ =>
                match plainImport env4 "matplotlib" with
                | .error p => (.error p, evs)
                | .ok _ => (.ok (), evs)

/-- The unconditional import block shared by both plotting functions:
`numpy`, `seaborn`, then twice the `matplotlib` package; the first of
these imports that fails raises.  `pandas` is not imported here. -/
def finalImports (env : PyEnv) : Except String Unit :=
  match plainImport env "numpy" with
  | .error p => .error p
  | .ok _ =>
    match plainImport env "seaborn" with
    | .error p => .error p
    | .ok _ =>
      match plainImport env "matplotlib" with
      | .error p => .error p
      | .ok _ =>
        match plainImport env "matplotlib" with
        | .error p => .error p
        | .ok _ => .ok ()

/-- An environment in which only `pandas` is missing. -/
def envNoPandas : PyEnv :=
  { importResult := fun p =>
      if p = "pandas" then .moduleNotFoundError else .ok }

/-- An environment in which only `numpy` is missing. -/
def envNoNumpy : PyEnv :=
  { importResult := fun p =>
      if p = "numpy" then .moduleNotFoundError else .ok }

/-- An installation that never fixes anything. -/
def pipNoop : PyEnv → String → PyEnv := fun env _ => env

/-- An installation that makes the installed package importable. -/
def pipInstall : PyEnv → String → PyEnv := fun env pkg =>
  { importResult := fun p => if p = pkg then .ok else env.importResult p }

/-- The payload of one HDF5 dataset (numeric arrays abstracted as lists
of rows of rationals). -/
abbrev H5Dataset := List (List ℚ)

/-- The groups and datasets of a vasculature HDF5 file that
`VasculatureLoader` reads: `points`, `edges`, `chains/structure` and
`chains/connectivity`. -/
structure H5File where
  points : H5Dataset
  edges : H5Dataset
  chainsStructure : H5Dataset
  chainsConnectivity : H5Dataset

/-- A filesystem mapping paths to HDF5 files; a path where opening
fails maps to `none`. -/
abbrev H5FS := String → Option H5File

/-- Modelled from the spec: `h5py.File(path, mode)` returns the parsed
file on success and records `(path, mode)`, so the access mode the
loader uses is observable in the log. -/
def h5pyFile (fs : H5FS) (path mode : String) :
    Option H5File × List (String × String) :=
  (fs path, [(path, mode)])

/-- The fields of `VasculatureLoader`
(`vasculature_loader.py` lines 39-93). -/
structure VasculatureLoader where
  dataset : String
  points_list : H5Dataset
  segments_list : H5Dataset
  sections_list : H5Dataset
  connections_list : H5Dataset

/-- `VasculatureLoader.__init__` together with the eager
`load_dataset_from_file` call it makes (`vasculature_loader.py`
lines 45-93): open the dataset with `h5py.File(self.dataset, 'r')` and
store the `points`, `edges`, `chains/structure` and
`chains/connectivity` datasets in the four lists (`.value` reads the
dataset payload); a file that fails to open makes construction fail.
Returns the constructed loader and the log of h5py open calls. -/
def VasculatureLoader_init (fs : H5FS) (dataset : String) :
    Option VasculatureLoader × List (String × String) :=
  let opened := h5pyFile fs dataset "r"
  (opened.1.map (fun data =>
    { dataset := dataset
      points_list := data.points
      segments_list := data.edges
      sections_list := data.chainsStructure
      connections_list := data.chainsConnectivity }), opened.2)

/-- A small concrete arbor used to evaluate the verified routines: a root
with a leaf first child and an interior second child carrying two
leaves. -/
def tEx : Section :=
  Section.mk 5 2
    [Section.mk 1 1 [], Section.mk 2 1 [Section.mk 3 1 [], Section.mk 4 1 []]]

/-- The fresh dendrogram state: every section starts with
`dendrogram_x = None` and `dendrogram_y = None`. -/
def dEx0 : DendroState := ⟨fun _ => none, fun _ => none⟩

/-- A child section is smaller than its parent. -/
theorem Section.sizeOf_child_lt {c : Section} {cs : List Section}
    (h : c ∈ cs) (pl ar : ℚ) : sizeOf c < sizeOf (Section.mk pl ar cs) := by
  have h1 := List.sizeOf_lt_of_mem h
  simp only [Section.mk.sizeOf_spec]
  omega

/-- Structural induction for `Section` through the nested children
list. -/
theorem Section.inductionOn {P : Section → Prop}
    (h : ∀ pl ar cs, (∀ c ∈ cs, P c) → P (Section.mk pl ar cs))
    (t : Section) : P t := by
  have key : ∀ n (t : Section), sizeOf t ≤ n → P t := by
    intro n
    induction n with
    | zero =>
      intro t ht
      cases t with
      | mk pl ar cs =>
        simp only [Section.mk.sizeOf_spec] at ht
        omega
    | succ n ih =>
      intro t ht
      cases t with
      | mk pl ar cs =>
        apply h
        intro c hc
        apply ih
        have h1 := Section.sizeOf_child_lt hc pl ar
        simp only [Section.mk.sizeOf_spec] at h1 ht
        omega
  exact key (sizeOf t) t le_rfl

theorem updF_self (s : XMap) (p : Pos) (v : ℚ) : updF s p v p = some v := by
  simp [updF]

theorem updF_ne (s : XMap) (p q : Pos) (v : ℚ) (h : q ≠ p) :
    updF s p v q = s q := by
  simp [updF, h]

theorem updF_isSome (s : XMap) (p q : Pos) (v : ℚ) (h : (s q).isSome) :
    ((updF s p v) q).isSome := by
  by_cases hq : q = p <;> simp [updF, hq, h]

theorem propagate_nil (t : Section) (s : XMap) :
    compute_dendrogram_x_coordinates_for_parents t [] s = s := rfl

theorem propagate_cons_none (t : Section) (i : ℕ) (p : Pos) (s : XMap)
    (h : subtreeAtRF t p.reverse = none) :
    compute_dendrogram_x_coordinates_for_parents t (i :: p) s = s := by
  rw [compute_dendrogram_x_coordinates_for_parents, h]

theorem propagate_cons_stuck (t : Section) (i : ℕ) (p : Pos) (s : XMap)
    (n : Section) (h1 : subtreeAtRF t p.reverse = some n)
    (h2 : childXSum s p n.children.length = none) :
    compute_dendrogram_x_coordinates_for_parents t (i :: p) s = s := by
  rw [compute_dendrogram_x_coordinates_for_parents, h1]
  show (match childXSum s p n.children.length with
    | none => s
    | some total =>
      compute_dendrogram_x_coordinates_for_parents t p
        (updF s p (total / (n.children.length : ℚ)))) = s
  rw [h2]

theorem propagate_cons_step (t : Section) (i : ℕ) (p : Pos) (s : XMap)
    (n : Section) (total : ℚ) (h1 : subtreeAtRF t p.reverse = some n)
    (h2 : childXSum s p n.children.length = some total) :
    compute_dendrogram_x_coordinates_for_parents t (i :: p) s =
      compute_dendrogram_x_coordinates_for_parents t p
        (updF s p (total / (n.children.length : ℚ))) := by
  rw [compute_dendrogram_x_coordinates_for_parents, h1]
  show (match childXSum s p n.children.length with
    | none => s
    | some total =>
      compute_dendrogram_x_coordinates_for_parents t p
        (updF s p (total / (n.children.length : ℚ)))) = _
  rw [h2]

theorem propagate_isSome (t : Section) (p : Pos) :
    ∀ (s : XMap) (q : Pos), (s q).isSome →
      ((compute_dendrogram_x_coordinates_for_parents t p s) q).isSome := by
  induction p with
  | nil =>
    intro s q h
    simpa [propagate_nil] using h
  | cons i p ih =>
    intro s q h
    cases hsub : subtreeAtRF t p.reverse with
    | none => rw [propagate_cons_none t i p s hsub]; exact h
    | some n =>
      cases hcs : childXSum s p n.children.length with
      | none => rw [propagate_cons_stuck t i p s n hsub hcs]; exact h
      | some total =>
        rw [propagate_cons_step t i p s n total hsub hcs]
        exact ih _ q (updF_isSome _ _ _ _ h)

theorem propagateAll_isSome (t : Section) (ps : List Pos) :
    ∀ (s : XMap) (q : Pos), (s q).isSome →
      ((propagateAllLeaves t ps s) q).isSome := by
  induction ps with
  | nil => intro s q h; simpa [propagateAllLeaves] using h
  | cons p ps ih =>
    intro s q h
    simp only [propagateAllLeaves, List.foldl_cons] at *
    exact ih _ q (propagate_isSome t p s q h)

theorem subtreeAtRF_append (a b : List ℕ) :
    ∀ t, subtreeAtRF t (a ++ b) =
      (subtreeAtRF t a).bind (fun n => subtreeAtRF n b) := by
  induction a with
  | nil => intro t; simp [subtreeAtRF]
  | cons j a ih =>
    intro t
    simp only [List.cons_append, subtreeAtRF]
    cases t.children.get? j with
    | none => simp
    | some c => simpa using ih c

theorem nodeOffAtRF_append (a b : List ℕ) :
    ∀ (off : ℕ) (t : Section), nodeOffAtRF off t (a ++ b) =
      (nodeOffAtRF off t a).bind (fun no => nodeOffAtRF no.2 no.1 b) := by
  induction a with
  | nil => intro off t; simp [nodeOffAtRF]
  | cons j a ih =>
    intro off t
    simp only [List.cons_append, nodeOffAtRF]
    cases t.children.get? j with
    | none => simp
    | some c => simpa using ih _ c

theorem nodeOffAtRF_singleton (off : ℕ) (t : Section) (j : ℕ) :
    nodeOffAtRF off t [j] =
      (t.children.get? j).map (fun c => (c, off + leavesBefore t.children j)) := by
  rw [nodeOffAtRF]
  cases h : t.children.get? j with
  | none => rfl
  | some c => rfl

theorem nodeOffAtRF_fst (q : List ℕ) :
    ∀ (off : ℕ) (t : Section),
      (nodeOffAtRF off t q).map Prod.fst = subtreeAtRF t q := by
  induction q with
  | nil => intro off t; simp [nodeOffAtRF, subtreeAtRF]
  | cons j q ih =>
    intro off t
    simp only [nodeOffAtRF, subtreeAtRF]
    cases t.children.get? j with
    | none => simp
    | some c => exact ih _ c

theorem nodeOffAtRF_of_subtree {t n : Section} {q : List ℕ}
    (h : subtreeAtRF t q = some n) :
    ∃ off, nodeOffAtRF 0 t q = some (n, off) := by
  have h1 := nodeOffAtRF_fst q 0 t
  rw [h] at h1
  cases h2 : nodeOffAtRF 0 t q with
  | none => rw [h2] at h1; simp at h1
  | some no =>
    rw [h2] at h1
    simp at h1
    refine ⟨no.2, ?_⟩
    rw [← h1]

theorem childXSum_isSome_elim (s : XMap) (p : Pos) :
    ∀ (m : ℕ), (childXSum s p m).isSome → ∀ j, j < m → (s (j :: p)).isSome := by
  intro m
  induction m with
  | zero => intro _ j hj; omega
  | succ m ih =>
    intro h j hj
    rw [childXSum] at h
    cases h1 : childXSum s p m with
    | none => rw [h1] at h; simp at h
    | some acc =>
      cases h2 : s (m :: p) with
      | none => rw [h1, h2] at h; simp at h
      | some v =>
        rcases Nat.lt_succ_iff_lt_or_eq.mp hj with hj' | hj'
        · exact ih (by rw [h1]; simp) j hj'
        · subst hj'; rw [h2]; simp

theorem childXSum_eq_sumBelow (s : XMap) (p : Pos) (f : ℕ → ℚ) :
    ∀ (m : ℕ), (∀ j, j < m → s (j :: p) = some (f j)) →
      childXSum s p m = some (sumBelow f m) := by
  intro m
  induction m with
  | zero => intro _; simp [childXSum, sumBelow]
  | succ m ih =>
    intro h
    rw [childXSum, ih (fun j hj => h j (by omega)), h m (by omega)]
    simp [sumBelow]

theorem childXSum_isSome_of (s : XMap) (p : Pos) (m : ℕ)
    (h : ∀ j, j < m → (s (j :: p)).isSome) : (childXSum s p m).isSome := by
  have h1 := childXSum_eq_sumBelow s p
      (fun j => ((s (j :: p)).getD 0)) m (fun j hj => by
        have hs := h j hj
        cases h2 : s (j :: p) with
        | none => rw [h2] at hs; simp at hs
        | some v => simp [h2])
  rw [h1]
  simp

theorem sumBelow_succ_shift (f : ℕ → ℚ) :
    ∀ m, sumBelow f (m + 1) = f 0 + sumBelow (fun j => f (j + 1)) m := by
  intro m
  induction m with
  | zero => simp [sumBelow]
  | succ m ih =>
    have e1 : sumBelow f (m + 1 + 1) = sumBelow f (m + 1) + f (m + 1) := rfl
    have e2 : sumBelow (fun j => f (j + 1)) (m + 1) =
        sumBelow (fun j => f (j + 1)) m + f (m + 1) := rfl
    rw [e1, ih, e2]
    ring

theorem leavesBefore_zero (cs : List Section) : leavesBefore cs 0 = 0 := by
  simp [leavesBefore, nLeavesList]

theorem leavesBefore_cons (c : Section) (rest : List Section) (j : ℕ) :
    leavesBefore (c :: rest) (j + 1) = nLeaves c + leavesBefore rest j := by
  simp [leavesBefore, List.take, nLeavesList]

theorem specXSumList_eq (delta : ℚ) :
    ∀ (cs : List Section) (off : ℕ) (f : ℕ → ℚ),
      (∀ j c, cs.get? j = some c →
        f j = specXNode delta (off + leavesBefore cs j) c) →
      sumBelow f cs.length = specXSumList delta off cs := by
  intro cs
  induction cs with
  | nil => intro off f _; simp [sumBelow, specXSumList]
  | cons c rest ih =>
    intro off f h
    rw [List.length_cons, sumBelow_succ_shift, specXSumList]
    have h0 : f 0 = specXNode delta off c := by
      have := h 0 c (by simp)
      simpa [leavesBefore_zero] using this
    have hrest : sumBelow (fun j => f (j + 1)) rest.length =
        specXSumList delta (off + nLeaves c) rest := by
      apply ih (off + nLeaves c)
      intro j c' hc'
      have := h (j + 1) c' (by simpa using hc')
      rw [this, leavesBefore_cons, Nat.add_assoc]
    rw [h0, hrest]

theorem get_subtree_leaves_list_length :
    ∀ (cs : List Section) (j : ℕ),
      (∀ c ∈ cs, (get_subtree_leaves c).length = nLeaves c) →
      (get_subtree_leaves_list cs j).length = nLeavesList cs := by
  intro cs
  induction cs with
  | nil => intro j _; simp [get_subtree_leaves_list, nLeavesList]
  | cons c rest ih =>
    intro j h
    rw [get_subtree_leaves_list, nLeavesList]
    simp only [List.length_append, List.length_map]
    rw [h c (by simp), ih (j + 1) (fun c' hc' => h c' (by simp [hc']))]

theorem get_subtree_leaves_length (t : Section) :
    (get_subtree_leaves t).length = nLeaves t := by
  induction t using Section.inductionOn with
  | _ pl ar cs ih =>
    cases cs with
    | nil => rfl
    | cons c rest =>
      rw [get_subtree_leaves, nLeaves]
      simp only [List.isEmpty_cons, if_false, Bool.false_eq_true, List.nil_append]
      exact get_subtree_leaves_list_length (c :: rest) 0 ih

theorem specOk_updF {delta : ℚ} {t : Section} {s : XMap} (hs : SpecOk delta t s)
    {p : Pos} {v : ℚ} (hv : specAt delta t p = some v) :
    SpecOk delta t (updF s p v) := by
  intro q w hq
  by_cases hqp : q = p
  · subst hqp
    rw [updF_self] at hq
    have hvw : v = w := by injection hq
    subst hvw
    exact hv
  · rw [updF_ne _ _ _ _ hqp] at hq
    exact hs q w hq

theorem specAt_child {delta : ℚ} {t n : Section} {p : Pos} {o : ℕ}
    (hn : nodeOffAtRF 0 t p.reverse = some (n, o)) {j : ℕ} {c : Section}
    (hc : n.children.get? j = some c) :
    specAt delta t (j :: p) =
      some (specXNode delta (o + leavesBefore n.children j) c) := by
  unfold specAt
  rw [List.reverse_cons, nodeOffAtRF_append, hn]
  show ((nodeOffAtRF o n [j]).map fun no => specXNode delta no.2 no.1) = _
  rw [nodeOffAtRF_singleton, hc]
  rfl

theorem get?_isSome_of_lt {α : Type} {l : List α} {j : ℕ} (h : j < l.length) :
    ∃ a, l.get? j = some a := by
  cases hg : l.get? j with
  | none =>
    rw [List.get?_eq_none] at hg
    omega
  | some a => exact ⟨a, rfl⟩

theorem lt_length_of_get?_eq_some {α : Type} {l : List α} {j : ℕ} {a : α}
    (h : l.get? j = some a) : j < l.length := by
  by_contra hge
  push_neg at hge
  rw [List.get?_eq_none.mpr hge] at h
  cases h

theorem specXNode_not_leaf (delta : ℚ) (off : ℕ) (pl ar : ℚ)
    (cs : List Section) (h : cs ≠ []) :
    specXNode delta off (Section.mk pl ar cs) =
      specXSumList delta off cs / (cs.length : ℚ) := by
  have he : cs.isEmpty = false := by
    cases cs with
    | nil => simp at h
    | cons a l => rfl
  rw [specXNode, he]
  simp

theorem specXNode_leaf (delta : ℚ) (off : ℕ) (pl ar : ℚ) :
    specXNode delta off (Section.mk pl ar []) = (off : ℚ) * delta := by
  rw [specXNode]
  simp

theorem specXNode_ne_nil (delta : ℚ) (off : ℕ) (n : Section)
    (h : n.children ≠ []) :
    specXNode delta off n =
      specXSumList delta off n.children / (n.children.length : ℚ) := by
  cases n with
  | mk pl ar cs =>
    simp only [Section.children] at h ⊢
    exact specXNode_not_leaf delta off pl ar cs h

theorem specOk_propagate {delta : ℚ} (t : Section) (p : Pos) :
    ∀ (s : XMap), (subtreeAtRF t p.reverse).isSome → SpecOk delta t s →
      SpecOk delta t (compute_dendrogram_x_coordinates_for_parents t p s) := by
  induction p with
  | nil =>
    intro s _ hs
    simpa [propagate_nil] using hs
  | cons i p ih =>
    intro s hval hs
    rw [List.reverse_cons, subtreeAtRF_append] at hval
    cases hsub : subtreeAtRF t p.reverse with
    | none => rw [hsub] at hval; simp at hval
    | some n =>
      rw [hsub] at hval
      cases hcs : childXSum s p n.children.length with
      | none => rw [propagate_cons_stuck t i p s n hsub hcs]; exact hs
      | some total =>
        rw [propagate_cons_step t i p s n total hsub hcs]
        obtain ⟨o, hno⟩ := nodeOffAtRF_of_subtree hsub
        have hgi : ∃ c, n.children.get? i = some c := by
          simp only [Option.some_bind] at hval
          rw [subtreeAtRF] at hval
          cases hg : n.children.get? i with
          | none => rw [hg] at hval; simp at hval
          | some c => exact ⟨c, rfl⟩
        obtain ⟨ci, hci⟩ := hgi
        have hilen : i < n.children.length := lt_length_of_get?_eq_some hci
        have hlen : 0 < n.children.length := by omega
        have hchildne : n.children ≠ [] := by
          intro hnil
          rw [hnil] at hlen
          simp at hlen
        -- each child's stored value is its reference value
        have hvals : ∀ j, j < n.children.length →
            s (j :: p) = some (specXNode delta (o + leavesBefore n.children j)
              (n.children.getD j (Section.mk 0 0 []))) := by
          intro j hj
          obtain ⟨cj, hcj⟩ := get?_isSome_of_lt hj
          have hsome := childXSum_isSome_elim s p n.children.length
            (by rw [hcs]; simp) j hj
          cases hsj : s (j :: p) with
          | none => rw [hsj] at hsome; simp at hsome
          | some vj =>
            have hspecj := hs (j :: p) vj hsj
            rw [specAt_child hno hcj] at hspecj
            have : vj = specXNode delta (o + leavesBefore n.children j) cj := by
              injection hspecj with h'
              exact h'.symm
            rw [this]
            congr 1
            rw [List.getD_eq_get?, hcj]
            rfl
        have hsum := childXSum_eq_sumBelow s p
          (fun j => specXNode delta (o + leavesBefore n.children j)
            (n.children.getD j (Section.mk 0 0 []))) n.children.length hvals
        have htotal : total = sumBelow
            (fun j => specXNode delta (o + leavesBefore n.children j)
              (n.children.getD j (Section.mk 0 0 []))) n.children.length := by
          rw [hcs] at hsum
          exact Option.some_injective _ hsum
        have hsumspec : sumBelow
            (fun j => specXNode delta (o + leavesBefore n.children j)
              (n.children.getD j (Section.mk 0 0 []))) n.children.length =
            specXSumList delta o n.children := by
          apply specXSumList_eq
          intro j c hc
          rw [List.getD_eq_get?, hc]
          rfl
        have hspecp : specAt delta t p = some (total / (n.children.length : ℚ)) := by
          unfold specAt
          rw [hno]
          show some (specXNode delta o n) = _
          rw [specXNode_ne_nil delta o n hchildne, htotal, hsumspec]
        exact ih _ (by rw [hsub]; simp) (specOk_updF hs hspecp)

theorem specOk_propagateAll {delta : ℚ} (t : Section) (ps : List Pos) :
    ∀ (s : XMap), (∀ p ∈ ps, (subtreeAtRF t p.reverse).isSome) →
      SpecOk delta t s → SpecOk delta t (propagateAllLeaves t ps s) := by
  induction ps with
  | nil => intro s _ hs; simpa [propagateAllLeaves] using hs
  | cons p ps ih =>
    intro s hv hs
    simp only [propagateAllLeaves, List.foldl_cons] at *
    exact ih _ (fun q hq => hv q (by simp [hq]))
      (specOk_propagate t p s (hv p (by simp)) hs)

theorem specOk_assign {delta : ℚ} {t : Section} :
    ∀ (ps : List Pos) (i : ℕ) (s : XMap), SpecOk delta t s →
      (∀ k lf, ps.get? k = some lf →
        specAt delta t lf = some (((i + k : ℕ) : ℚ) * delta)) →
      SpecOk delta t (assignLeafX delta ps i s) := by
  intro ps
  induction ps with
  | nil => intro i s hs _; simpa [assignLeafX] using hs
  | cons p ps ih =>
    intro i s hs hsp
    rw [assignLeafX]
    refine ih (i + 1) _ (specOk_updF hs ?_) ?_
    · have h0 := hsp 0 p (by simp)
      simpa using h0
    · intro k lf h
      have hk := hsp (k + 1) lf (by simpa using h)
      have e : i + (k + 1) = (i + 1) + k := by omega
      rw [e] at hk
      exact hk

theorem leaf_index_list :
    ∀ (cs : List Section) (j0 off k : ℕ) (lf : Pos),
      (∀ c ∈ cs, LeafIndexProp c) →
      (get_subtree_leaves_list cs j0).get? k = some lf →
      ∃ j' c q n, cs.get? j' = some c ∧ lf = q ++ [j0 + j'] ∧
        nodeOffAtRF (off + nLeavesList (cs.take j')) c q.reverse =
          some (n, off + k) ∧ n.children = [] := by
  intro cs
  induction cs with
  | nil =>
    intro j0 off k lf _ h
    rw [get_subtree_leaves_list] at h
    simp at h
  | cons c rest ih =>
    intro j0 off k lf hprop h
    rw [get_subtree_leaves_list] at h
    by_cases hk : k < ((get_subtree_leaves c).map (fun q => q ++ [j0])).length
    · rw [List.get?_append hk] at h
      rw [List.get?_map] at h
      cases hg : (get_subtree_leaves c).get? k with
      | none => rw [hg] at h; cases h
      | some q =>
        rw [hg] at h
        have hlf : lf = q ++ [j0] := by
          injection h with h'
          exact h'.symm
        obtain ⟨n, hn, hleaf⟩ := hprop c (by simp) off k q hg
        refine ⟨0, c, q, n, by simp, ?_, ?_, hleaf⟩
        · rw [hlf]; simp
        · simpa [nLeavesList] using hn
    · push_neg at hk
      rw [List.get?_append_right hk] at h
      have hlenA : ((get_subtree_leaves c).map (fun q => q ++ [j0])).length =
          nLeaves c := by
        rw [List.length_map, get_subtree_leaves_length]
      obtain ⟨j'', c', q, n, h1, h2, h3, h4⟩ :=
        ih (j0 + 1) (off + nLeaves c)
          (k - ((get_subtree_leaves c).map (fun q => q ++ [j0])).length) lf
          (fun c' hc' => hprop c' (by simp [hc'])) h
      refine ⟨j'' + 1, c', q, n, by simpa using h1, ?_, ?_, h4⟩
      · rw [h2]
        have : j0 + (j'' + 1) = (j0 + 1) + j'' := by omega
        rw [this]
      · have e1 : off + nLeavesList ((c :: rest).take (j'' + 1)) =
            (off + nLeaves c) + nLeavesList (rest.take j'') := by
          simp [List.take, nLeavesList]
          omega
        have e2 : (off + nLeaves c) +
            (k - ((get_subtree_leaves c).map (fun q => q ++ [j0])).length) =
            off + k := by
          rw [hlenA]
          omega
        rw [e1, ← e2]
        exact h3

/-- Helper equation: the leaves of an interior section are exactly those
contributed by its children. -/
theorem get_subtreeleaves_aux_eq (pl ar : ℚ) (c : Section)
    (rest : List Section) :
    get_subtree_leaves (Section.mk pl ar (c :: rest)) =
      get_subtree_leaves_list (c :: rest) 0 := by
  rw [get_subtree_leaves]
  simp

theorem leaf_index (t : Section) : LeafIndexProp t := by
  induction t using Section.inductionOn with
  | _ pl ar cs ih =>
    intro off k lf hk
    cases cs with
    | nil =>
      rw [get_subtree_leaves] at hk
      simp only [List.isEmpty_nil, if_true, get_subtree_leaves_list,
        List.append_nil] at hk
      have hk0 : k = 0 ∧ lf = [] := by
        cases k with
        | zero =>
          refine ⟨rfl, ?_⟩
          simp at hk
          exact hk
        | succ k => simp at hk
      obtain ⟨hk0, hlf⟩ := hk0
      subst hk0; subst hlf
      exact ⟨Section.mk pl ar [], by simp [nodeOffAtRF], rfl⟩
    | cons c rest =>
      rw [get_subtreeleaves_aux_eq] at hk
      obtain ⟨j', c', q, n, h1, h2, h3, h4⟩ :=
        leaf_index_list (c :: rest) 0 off k lf ih hk
      refine ⟨n, ?_, h4⟩
      rw [Nat.zero_add] at h2
      rw [h2]
      rw [List.reverse_append]
      simp only [List.reverse_cons, List.reverse_nil, List.nil_append,
        List.singleton_append]
      rw [nodeOffAtRF]
      have hch : (Section.mk pl ar (c :: rest)).children.get? j' =
          some c' := by
        simpa [Section.children] using h1
      rw [hch]
      exact h3

theorem propagateAllLeaves_append (t : Section) (a b : List Pos) (s : XMap) :
    propagateAllLeaves t (a ++ b) s =
      propagateAllLeaves t b (propagateAllLeaves t a s) := by
  simp [propagateAllLeaves, List.foldl_append]

theorem map_shift_append (ls : List Pos) (j0 : ℕ) (r : Pos) :
    (ls.map (fun q => q ++ [j0])).map (fun q => q ++ r) =
      ls.map (fun q => q ++ (j0 :: r)) := by
  rw [List.map_map]
  congr 1
  funext q
  simp

theorem nil_mem_allPos (c : Section) : [] ∈ allPos c := by
  cases c with
  | mk pl ar cs => rw [allPos]; simp

theorem mem_allPosList_elim :
    ∀ (cs : List Section) (j0 : ℕ) (q : Pos), q ∈ allPosList cs j0 →
      ∃ j' c' q', cs.get? j' = some c' ∧ q' ∈ allPos c' ∧
        q = q' ++ [j0 + j'] := by
  intro cs
  induction cs with
  | nil => intro j0 q h; rw [allPosList] at h; simp at h
  | cons c rest ih =>
    intro j0 q h
    rw [allPosList] at h
    rcases List.mem_append.mp h with h | h
    · rcases List.mem_map.mp h with ⟨q', hq', hq⟩
      exact ⟨0, c, q', by simp, hq', by rw [← hq]; simp⟩
    · rcases ih (j0 + 1) q h with ⟨j', c', q', h1, h2, h3⟩
      refine ⟨j' + 1, c', q', by simpa using h1, h2, ?_⟩
      rw [h3]
      have e : (j0 + 1) + j' = j0 + (j' + 1) := by omega
      rw [e]

theorem mem_allPosList_intro :
    ∀ (cs : List Section) (j0 j' : ℕ) (c : Section) (q' : Pos),
      cs.get? j' = some c → q' ∈ allPos c →
      q' ++ [j0 + j'] ∈ allPosList cs j0 := by
  intro cs
  induction cs with
  | nil => intro j0 j' c q' h _; cases h
  | cons c0 rest ih =>
    intro j0 j' c q' h hq
    rw [allPosList]
    cases j' with
    | zero =>
      have hc : c0 = c := by simpa using h
      subst hc
      apply List.mem_append_left
      simpa using List.mem_map_of_mem (fun q => q ++ [j0]) hq
    | succ j'' =>
      apply List.mem_append_right
      have h' : rest.get? j'' = some c := by simpa using h
      have := ih (j0 + 1) j'' c q' h' hq
      have e : (j0 + 1) + j'' = j0 + (j'' + 1) := by omega
      rw [e] at this
      exact this

theorem valid_mem_allPos (t : Section) :
    ∀ (q : Pos), (subtreeAtRF t q.reverse).isSome → q ∈ allPos t := by
  induction t using Section.inductionOn with
  | _ pl ar cs ih =>
    intro q hq
    cases hrev : q.reverse with
    | nil =>
      have hq0 : q = [] := by
        have := congrArg List.reverse hrev
        rw [List.reverse_reverse] at this
        simpa using this
      subst hq0
      exact nil_mem_allPos _
    | cons j rr =>
      have hq' : q = rr.reverse ++ [j] := by
        have := congrArg List.reverse hrev
        rw [List.reverse_reverse] at this
        rw [this]
        simp
      rw [hrev, subtreeAtRF] at hq
      cases hg : (Section.mk pl ar cs).children.get? j with
      | none => rw [hg] at hq; simp at hq
      | some cj =>
        rw [hg] at hq
        have hq2 : (subtreeAtRF cj rr).isSome := hq
        simp only [Section.children] at hg
        have hmem : rr.reverse ∈ allPos cj := by
          apply ih cj (List.get?_mem hg)
          rw [List.reverse_reverse]
          exact hq2
        rw [hq', allPos]
        apply List.mem_cons_of_mem
        have := mem_allPosList_intro cs 0 j cj rr.reverse hg hmem
        simpa using this

theorem tot_blocks (t : Section) :
    ∀ (cs : List Section) (tsub : Section) (j0 : ℕ) (r : Pos) (s : XMap),
      (∀ c ∈ cs, TotProp t c) →
      subtreeAtRF t r.reverse = some tsub →
      (∀ j', cs.get? j' = tsub.children.get? (j0 + j')) →
      cs ≠ [] →
      (∀ lf ∈ get_subtree_leaves_list cs j0, (s (lf ++ r)).isSome) →
      ∃ smid,
        propagateAllLeaves t
            ((get_subtree_leaves_list cs j0).map (fun q => q ++ r)) s =
          compute_dendrogram_x_coordinates_for_parents t
            ((j0 + (cs.length - 1)) :: r) smid ∧
        (∀ j' c q, cs.get? j' = some c → q ∈ allPos c →
          (smid (q ++ ((j0 + j') :: r))).isSome) ∧
        (∀ q, (s q).isSome → (smid q).isSome) := by
  intro cs
  induction cs with
  | nil => intro tsub j0 r s _ _ _ hne _; exact absurd rfl hne
  | cons c rest ih =>
    intro tsub j0 r s hprop hval hget hne hleaves
    have hg0 : tsub.children.get? j0 = some c := by
      have h := (hget 0).symm
      rw [Nat.add_zero] at h
      simpa using h
    have hvalc : subtreeAtRF t (j0 :: r).reverse = some c := by
      rw [List.reverse_cons, subtreeAtRF_append, hval]
      simp only [Option.some_bind]
      rw [subtreeAtRF, hg0]
      rfl
    have hleafc : ∀ lf ∈ get_subtree_leaves c, (s (lf ++ (j0 :: r))).isSome := by
      intro lf hlf
      have e : (lf ++ [j0]) ++ r = lf ++ (j0 :: r) := by simp
      rw [← e]
      apply hleaves
      rw [get_subtree_leaves_list]
      exact List.mem_append_left _ (List.mem_map_of_mem _ hlf)
    obtain ⟨smid0, heq0, hsome0, hext0⟩ := hprop c (by simp) (j0 :: r) s hvalc hleafc
    rw [get_subtree_leaves_list, List.map_append, propagateAllLeaves_append,
      map_shift_append, heq0]
    cases rest with
    | nil =>
      refine ⟨smid0, ?_, ?_, hext0⟩
      · rw [get_subtree_leaves_list]
        simp only [List.map_nil]
        rw [propagateAllLeaves]
        simp only [List.foldl_nil, List.length_cons, List.length_nil]
        norm_num
      · intro j' c' q hj' hq
        cases j' with
        | zero =>
          have hc : c = c' := by simpa using hj'
          subst hc
          have := hsome0 q hq
          simpa using this
        | succ j'' => simp at hj'
    | cons c2 rest2 =>
      have hext1 : ∀ q, (s q).isSome →
          ((compute_dendrogram_x_coordinates_for_parents t (j0 :: r) smid0) q).isSome :=
        fun q h => propagate_isSome t (j0 :: r) smid0 q (hext0 q h)
      have hsomeblk0 : ∀ q ∈ allPos c,
          ((compute_dendrogram_x_coordinates_for_parents t (j0 :: r) smid0)
            (q ++ (j0 :: r))).isSome :=
        fun q hq => propagate_isSome t (j0 :: r) smid0 _ (hsome0 q hq)
      obtain ⟨smid1, heq1, hsome1, hext2⟩ :=
        ih tsub (j0 + 1) r
          (compute_dendrogram_x_coordinates_for_parents t (j0 :: r) smid0)
          (fun c' hc' => hprop c' (by simp [hc']))
          hval
          (fun j' => by
            have h := hget (j' + 1)
            have e : j0 + (j' + 1) = (j0 + 1) + j' := by omega
            rw [e] at h
            simpa using h)
          (by simp)
          (fun lf hlf => hext1 _ (hleaves lf (by
            rw [get_subtree_leaves_list]
            exact List.mem_append_right _ hlf)))
      refine ⟨smid1, ?_, ?_, fun q h => hext2 q (hext1 q h)⟩
      · rw [heq1]
        have e : (j0 + 1) + ((c2 :: rest2).length - 1) =
            j0 + ((c :: c2 :: rest2).length - 1) := by
          simp only [List.length_cons]
          omega
        rw [e]
      · intro j' c' q hj' hq
        cases j' with
        | zero =>
          have hc : c = c' := by simpa using hj'
          subst hc
          have h1 := hsomeblk0 q hq
          have h2 := hext2 _ h1
          simpa using h2
        | succ j'' =>
          have hj'' : (c2 :: rest2).get? j'' = some c' := by simpa using hj'
          have h3 := hsome1 j'' c' q hj'' hq
          have e : (j0 + 1) + j'' = j0 + (j'' + 1) := by omega
          rw [e] at h3
          exact h3

theorem tot (t : Section) : ∀ tsub, TotProp t tsub := by
  intro tsub
  induction tsub using Section.inductionOn with
  | _ pl ar cs ih =>
    intro r s hval hleaves
    cases cs with
    | nil =>
      refine ⟨s, ?_, ?_, fun q h => h⟩
      · rw [get_subtree_leaves]
        simp only [List.isEmpty_nil, if_true, get_subtree_leaves_list,
          List.append_nil]
        simp [propagateAllLeaves]
      · intro q hq
        rw [allPos] at hq
        simp only [allPosList] at hq
        have hq0 : q = [] := by simpa using hq
        subst hq0
        have := hleaves [] (by rw [get_subtree_leaves]
                               simp [get_subtree_leaves_list])
        simpa using this
    | cons c rest =>
      obtain ⟨smid, heq, hsome, hext⟩ :=
        tot_blocks t (c :: rest) (.mk pl ar (c :: rest)) 0 r s ih hval
          (fun j' => by simp [Section.children]) (by simp)
          (fun lf hlf => hleaves lf (by rw [get_subtreeleaves_aux_eq]; exact hlf))
      have hchildsome : ∀ j',
          j' < (Section.mk pl ar (c :: rest)).children.length →
          (smid (j' :: r)).isSome := by
        intro j' hj'
        simp only [Section.children] at hj'
        obtain ⟨cj, hcj⟩ := get?_isSome_of_lt (l := c :: rest) hj'
        have := hsome j' cj [] hcj (nil_mem_allPos cj)
        simpa using this
      have hcsx := childXSum_isSome_of smid r
        (Section.mk pl ar (c :: rest)).children.length hchildsome
      obtain ⟨total, htotal⟩ := Option.isSome_iff_exists.mp hcsx
      have hstep := propagate_cons_step t (0 + ((c :: rest).length - 1)) r smid
        (Section.mk pl ar (c :: rest)) total hval htotal
      refine ⟨updF smid r
        (total / (((Section.mk pl ar (c :: rest)).children.length : ℕ) : ℚ)),
        ?_, ?_, fun q h => updF_isSome _ _ _ _ (hext q h)⟩
      · rw [get_subtreeleaves_aux_eq, heq, hstep]
      · intro q hq
        rw [allPos] at hq
        rcases List.mem_cons.mp hq with hq | hq
        · subst hq
          simp only [List.nil_append]
          rw [updF_self]
          rfl
        · obtain ⟨j', c', q', h1, h2, h3⟩ := mem_allPosList_elim (c :: rest) 0 q hq
          subst h3
          have e : (q' ++ [0 + j']) ++ r = q' ++ ((0 + j') :: r) := by simp
          rw [e]
          apply updF_isSome
          have := hsome j' c' q' h1 h2
          exact this

theorem computeY_list_x_eq :
    ∀ (cs : List Section) (j : ℕ) (pos : Pos) (s : DendroState),
      (∀ c ∈ cs, ∀ (pos' : Pos) (s' : DendroState),
        (compute_dendrogram_y_coordinates_for_children c pos' s').x = s'.x) →
      (compute_dendrogram_y_children_list cs j pos s).x = s.x := by
  intro cs
  induction cs with
  | nil => intro j pos s _; rw [compute_dendrogram_y_children_list]
  | cons c rest ih =>
    intro j pos s h
    rw [compute_dendrogram_y_children_list]
    rw [ih (j + 1) pos _ (fun c' hc' => h c' (by simp [hc']))]
    exact h c (by simp) (j :: pos) s

theorem computeY_x_eq (node : Section) :
    ∀ (pos : Pos) (s : DendroState),
      (compute_dendrogram_y_coordinates_for_children node pos s).x = s.x := by
  induction node using Section.inductionOn with
  | _ pl ar cs ih =>
    intro pos s
    rw [compute_dendrogram_y_coordinates_for_children]
    rw [computeY_list_x_eq cs 0 pos _ (fun c hc pos' s' => ih c hc pos' s')]

theorem append_singleton_inj {q q' : List ℕ} {a b : ℕ}
    (h : q ++ [a] = q' ++ [b]) : a = b := by
  have h1 := congrArg List.getLast? h
  rw [List.getLast?_concat, List.getLast?_concat] at h1
  injection h1

theorem pos_cons_append_ne {q q' : List ℕ} {a b : ℕ} {pos : List ℕ}
    (hne : a ≠ b) : q ++ (a :: pos) ≠ q' ++ (b :: pos) := by
  intro h
  have e1 : (q ++ [a]) ++ pos = (q' ++ [b]) ++ pos := by
    simpa [List.append_assoc] using h
  have e2 : q ++ [a] = q' ++ [b] := by
    exact List.append_cancel_right e1
  exact hne (append_singleton_inj e2)

theorem computeY_list_y_frame :
    ∀ (cs : List Section) (j0 : ℕ) (pos : Pos) (s : DendroState) (p' : Pos),
      (∀ c ∈ cs, ∀ (pos' : Pos) (s' : DendroState) (p'' : Pos),
        (∀ q, (subtreeAtRF c q.reverse).isSome → p'' ≠ q ++ pos') →
        (compute_dendrogram_y_coordinates_for_children c pos' s').y p'' =
          s'.y p'') →
      (∀ j' c q, cs.get? j' = some c → (subtreeAtRF c q.reverse).isSome →
        p' ≠ q ++ ((j0 + j') :: pos)) →
      (compute_dendrogram_y_children_list cs j0 pos s).y p' = s.y p' := by
  intro cs
  induction cs with
  | nil => intro j0 pos s p' _ _; rw [compute_dendrogram_y_children_list]
  | cons c rest ih =>
    intro j0 pos s p' htree hne
    rw [compute_dendrogram_y_children_list]
    rw [ih (j0 + 1) pos _ p' (fun c' hc' => htree c' (by simp [hc']))
      (fun j' c' q hj' hq => by
        have := hne (j' + 1) c' q (by simpa using hj') hq
        have e : (j0 + 1) + j' = j0 + (j' + 1) := by omega
        rw [e]
        exact this)]
    exact htree c (by simp) (j0 :: pos) s p'
      (fun q hq => by
        have := hne 0 c q (by simp) hq
        simpa using this)

theorem subtreeAtRF_child_valid {pl ar : ℚ} {cs : List Section} {j' : ℕ}
    {c : Section} (hj : cs.get? j' = some c) {q : Pos}
    (hq : (subtreeAtRF c q.reverse).isSome) :
    (subtreeAtRF (Section.mk pl ar cs) ((q ++ [j']).reverse)).isSome := by
  rw [List.reverse_append]
  show (subtreeAtRF (Section.mk pl ar cs) ([j'] ++ q.reverse)).isSome
  rw [subtreeAtRF_append]
  have h1 : subtreeAtRF (Section.mk pl ar cs) [j'] = some c := by
    show (match (Section.mk pl ar cs).children.get? j' with
      | none => none
      | some c' => subtreeAtRF c' []) = some c
    simp only [Section.children, hj]
    rfl
  rw [h1]
  simpa using hq

theorem computeY_y_frame (node : Section) :
    ∀ (pos : Pos) (s : DendroState) (p' : Pos),
      (∀ q, (subtreeAtRF node q.reverse).isSome → p' ≠ q ++ pos) →
      (compute_dendrogram_y_coordinates_for_children node pos s).y p' =
        s.y p' := by
  induction node using Section.inductionOn with
  | _ pl ar cs ih =>
    intro pos s p' hne
    rw [compute_dendrogram_y_coordinates_for_children]
    rw [computeY_list_y_frame cs 0 pos _ p'
      (fun c hc pos' s' p'' h => ih c hc pos' s' p'' h)
      (fun j' c q hj' hq => by
        have hvalid := @subtreeAtRF_child_valid pl ar cs j' c hj' q hq
        have := hne (q ++ [j']) hvalid
        simp only [List.append_assoc, List.singleton_append] at this
        simpa using this)]
    show updF s.y pos _ p' = s.y p'
    apply updF_ne
    have := hne [] (by rfl)
    simpa using this

theorem computeY_list_y_correct :
    ∀ (cs : List Section) (j0 : ℕ) (pos : Pos) (s : DendroState)
      (j' : ℕ) (c : Section) (q : Pos) (n : Section),
      (∀ c' ∈ cs, ∀ (pos' : Pos) (s' : DendroState) (q' : Pos) (n' : Section),
        subtreeAtRF c' q'.reverse = some n' →
        (compute_dendrogram_y_coordinates_for_children c' pos' s').y
          (q' ++ pos') = some n'.compute_path_length) →
      cs.get? j' = some c → subtreeAtRF c q.reverse = some n →
      (compute_dendrogram_y_children_list cs j0 pos s).y
        (q ++ ((j0 + j') :: pos)) = some n.compute_path_length := by
  intro cs
  induction cs with
  | nil => intro j0 pos s j' c q n _ h _; cases h
  | cons c0 rest ih =>
    intro j0 pos s j' c q n htree hj' hq
    rw [compute_dendrogram_y_children_list]
    cases j' with
    | zero =>
      have hc : c0 = c := by simpa using hj'
      subst hc
      rw [computeY_list_y_frame rest (j0 + 1) pos _ _
        (fun c' hc' pos' s' p'' h =>
          computeY_y_frame c' pos' s' p'' h)
        (fun j'' c'' q'' hj'' hq'' => by
          apply pos_cons_append_ne
          omega)]
      have := htree c0 (by simp) (j0 :: pos) s q n hq
      simpa using this
    | succ j'' =>
      have hj'2 : rest.get? j'' = some c := by simpa using hj'
      have e : j0 + (j'' + 1) = (j0 + 1) + j'' := by omega
      rw [e]
      exact ih (j0 + 1) pos _ j'' c q n
        (fun c' hc' => htree c' (by simp [hc'])) hj'2 hq

theorem computeY_y_correct (node : Section) :
    ∀ (pos : Pos) (s : DendroState) (q : Pos) (n : Section),
      subtreeAtRF node q.reverse = some n →
      (compute_dendrogram_y_coordinates_for_children node pos s).y
        (q ++ pos) = some n.compute_path_length := by
  induction node using Section.inductionOn with
  | _ pl ar cs ih =>
    intro pos s q n hq
    rw [compute_dendrogram_y_coordinates_for_children]
    cases hrev : q.reverse with
    | nil =>
      have hq0 : q = [] := by
        have := congrArg List.reverse hrev
        rw [List.reverse_reverse] at this
        simpa using this
      subst hq0
      rw [hrev, subtreeAtRF] at hq
      have hn : n = Section.mk pl ar cs := (Option.some_injective _ hq).symm
      subst hn
      rw [computeY_list_y_frame cs 0 pos _ _
        (fun c' hc' pos' s' p'' h => computeY_y_frame c' pos' s' p'' h)
        (fun j' c' q' hj' hq' => by
          intro hcontra
          have hlen := congrArg List.length hcontra
          simp at hlen
          omega)]
      simp only [List.nil_append]
      show updF s.y pos (Section.compute_path_length (Section.mk pl ar cs)) pos =
        some (Section.mk pl ar cs).compute_path_length
      rw [updF_self]
    | cons j rr =>
      have hq' : q = rr.reverse ++ [j] := by
        have := congrArg List.reverse hrev
        rw [List.reverse_reverse] at this
        rw [this]
        simp
      rw [hrev, subtreeAtRF] at hq
      cases hg : (Section.mk pl ar cs).children.get? j with
      | none => rw [hg] at hq; cases hq
      | some cj =>
        rw [hg] at hq
        have hq2 : subtreeAtRF cj rr = some n := hq
        simp only [Section.children] at hg
        have hm : subtreeAtRF cj (rr.reverse).reverse = some n := by
          rw [List.reverse_reverse]
          exact hq2
        have := computeY_list_y_correct cs 0 pos
          { s with y := updF s.y pos (Section.compute_path_length (Section.mk pl ar cs)) }
          j cj rr.reverse n
          (fun c' hc' pos' s' q' n' h => ih c' hc' pos' s' q' n' h)
          hg hm
        rw [hq']
        simp only [List.append_assoc, List.singleton_append]
        simpa using this

theorem assign_isSome_mono (delta : ℚ) :
    ∀ (ps : List Pos) (i : ℕ) (s : XMap) (q : Pos), (s q).isSome →
      ((assignLeafX delta ps i s) q).isSome := by
  intro ps
  induction ps with
  | nil => intro i s q h; simpa [assignLeafX] using h
  | cons p ps ih =>
    intro i s q h
    rw [assignLeafX]
    exact ih _ _ q (updF_isSome _ _ _ _ h)

theorem assign_isSome_mem (delta : ℚ) :
    ∀ (ps : List Pos) (i : ℕ) (s : XMap) (p : Pos), p ∈ ps →
      ((assignLeafX delta ps i s) p).isSome := by
  intro ps
  induction ps with
  | nil => intro i s p h; cases h
  | cons p0 ps ih =>
    intro i s p h
    rw [assignLeafX]
    rcases List.mem_cons.mp h with h | h
    · subst h
      exact assign_isSome_mono delta ps (i + 1) _ p (by rw [updF_self]; rfl)
    · exact ih _ _ p h

theorem leaves_valid (t : Section) {lf : Pos}
    (h : lf ∈ get_subtree_leaves t) :
    (subtreeAtRF t lf.reverse).isSome := by
  obtain ⟨k, hk⟩ := List.mem_iff_get?.mp h
  obtain ⟨n, hn, _⟩ := leaf_index t 0 k lf hk
  have h1 := nodeOffAtRF_fst lf.reverse 0 t
  rw [hn] at h1
  rw [← h1]
  simp

theorem specAt_leaf (t : Section) (delta : ℚ) {k : ℕ} {lf : Pos}
    (h : (get_subtree_leaves t).get? k = some lf) :
    specAt delta t lf = some ((k : ℚ) * delta) := by
  obtain ⟨n, hn, hleaf⟩ := leaf_index t 0 k lf h
  unfold specAt
  rw [hn]
  show some (specXNode delta (0 + k) n) = _
  rw [Nat.zero_add]
  cases n with
  | mk pl ar cs =>
    simp only [Section.children] at hleaf
    subst hleaf
    rw [specXNode_leaf]

theorem arborX_eq (t : Section) (delta : ℚ) (s : DendroState) :
    (compute_arbor_dendrogram t delta s).x =
      propagateAllLeaves t (get_subtree_leaves t)
        (assignLeafX delta (get_subtree_leaves t) 0 s.x) := by
  show (compute_dendrogram_y_coordinates_for_children t []
      { x := propagateAllLeaves t (get_subtree_leaves t)
          (assignLeafX delta (get_subtree_leaves t) 0 s.x),
        y := s.y }).x = _
  rw [computeY_x_eq]

theorem arborX_spec (t : Section) (delta : ℚ) (s : DendroState)
    (h0 : ∀ p, s.x p = none) :
    SpecOk delta t ((compute_arbor_dendrogram t delta s).x) := by
  rw [arborX_eq]
  apply specOk_propagateAll
  · intro p hp
    exact leaves_valid t hp
  · apply specOk_assign
    · intro p v hv
      rw [h0 p] at hv
      cases hv
    · intro k lf hk
      rw [specAt_leaf t delta hk]
      norm_num

theorem arborX_total (t : Section) (delta : ℚ) (s : DendroState) :
    ∀ p, (subtreeAtRF t p.reverse).isSome →
      ((compute_arbor_dendrogram t delta s).x p).isSome := by
  intro p hp
  rw [arborX_eq]
  obtain ⟨smid, heq, hsome, _⟩ :=
    tot t t ([] : Pos) (assignLeafX delta (get_subtree_leaves t) 0 s.x)
      (by rfl)
      (fun lf hlf => by
        rw [List.append_nil]
        exact assign_isSome_mem delta _ 0 _ lf hlf)
  have hmapid : (get_subtree_leaves t).map (fun q => q ++ ([] : Pos)) =
      get_subtree_leaves t := by
    simp
  rw [hmapid] at heq
  rw [heq, propagate_nil]
  have := hsome p (valid_mem_allPos t p hp)
  simpa using this

theorem specOk_consistent {delta : ℚ} {t : Section} {sx : XMap}
    (hspec : SpecOk delta t sx) {p : Pos} {n : Section} {total : ℚ}
    (hsub : subtreeAtRF t p.reverse = some n) (hne : n.children ≠ [])
    (hsx : (sx p).isSome)
    (hcs : childXSum sx p n.children.length = some total) :
    sx p = some (total / (n.children.length : ℚ)) := by
  obtain ⟨o, hno⟩ := nodeOffAtRF_of_subtree hsub
  obtain ⟨v, hv⟩ := Option.isSome_iff_exists.mp hsx
  have hval := hspec p v hv
  have hvals : ∀ j, j < n.children.length →
      sx (j :: p) = some (specXNode delta (o + leavesBefore n.children j)
        (n.children.getD j (Section.mk 0 0 []))) := by
    intro j hj
    obtain ⟨cj, hcj⟩ := get?_isSome_of_lt hj
    have hsome := childXSum_isSome_elim sx p n.children.length
      (by rw [hcs]; simp) j hj
    cases hsj : sx (j :: p) with
    | none => rw [hsj] at hsome; simp at hsome
    | some vj =>
      have hspecj := hspec (j :: p) vj hsj
      rw [specAt_child hno hcj] at hspecj
      have hvj : vj = specXNode delta (o + leavesBefore n.children j) cj := by
        injection hspecj with h'
        exact h'.symm
      rw [hvj]
      congr 1
      rw [List.getD_eq_get?, hcj]
      rfl
  have hsum := childXSum_eq_sumBelow sx p
    (fun j => specXNode delta (o + leavesBefore n.children j)
      (n.children.getD j (Section.mk 0 0 []))) n.children.length hvals
  have htotal : total = sumBelow
      (fun j => specXNode delta (o + leavesBefore n.children j)
        (n.children.getD j (Section.mk 0 0 []))) n.children.length := by
    rw [hcs] at hsum
    exact Option.some_injective _ hsum
  have hsumspec : sumBelow
      (fun j => specXNode delta (o + leavesBefore n.children j)
        (n.children.getD j (Section.mk 0 0 []))) n.children.length =
      specXSumList delta o n.children := by
    apply specXSumList_eq
    intro j c hc
    rw [List.getD_eq_get?, hc]
    rfl
  have hveq : v = specXNode delta o n := by
    unfold specAt at hval
    rw [hno] at hval
    have : some (specXNode delta o n) = some v := hval
    exact (Option.some_injective _ this).symm
  rw [hv, hveq, specXNode_ne_nil delta o n hne, htotal, hsumspec]

/-- C1: for every non-`None` arbor, `compute_arbor_dendrogram(arbor,
delta)` assigns `dendrogram_x = i * delta` to the `i`-th leaf (0-based)
of the arbor in the depth-first order produced by `get_arbor_leaves`, and
assigns to every interior section whose children all have a computed
`dendrogram_x` the arithmetic mean of its children's `dendrogram_x`
values (stated for an arbor whose sections start with
`dendrogram_x = None`, and with the mean written as the computed sum of
the children's values divided by their number). -/
theorem compute_arbor_dendrogram_x_correct (t : Section) (delta : ℚ)
    (s : DendroState) (h0 : ∀ p, s.x p = none) :
    (∀ k lf, (get_arbor_leaves (some t)).get? k = some lf →
      (compute_arbor_dendrogram t delta s).x lf = some ((k : ℚ) * delta)) ∧
    (∀ p n total, subtreeAtRF t p.reverse = some n → n.children ≠ [] →
      childXSum (compute_arbor_dendrogram t delta s).x p
        n.children.length = some total →
      (compute_arbor_dendrogram t delta s).x p =
        some (total / (n.children.length : ℚ))) := by
  constructor
  · intro k lf hk
    have hmem : lf ∈ get_subtree_leaves t := List.get?_mem hk
    have hvalid := leaves_valid t hmem
    have hsome := arborX_total t delta s lf hvalid
    obtain ⟨v, hv⟩ := Option.isSome_iff_exists.mp hsome
    have h1 := arborX_spec t delta s h0 lf v hv
    rw [specAt_leaf t delta hk] at h1
    rw [hv, ← h1]
  · intro p n total hsub hne hcs
    exact specOk_consistent (arborX_spec t delta s h0) hsub hne
      (arborX_total t delta s p (by rw [hsub]; rfl)) hcs

/-- Witness for C1 on the concrete arbor `tEx` with `delta = 4`: the
second leaf (position `[0, 1]`) receives `1 * 4 = 4`, and the root
(position `[]`, two children with values `0` and `6`) receives their mean
`(0 + 6) / 2 = 3`. -/
theorem compute_arbor_dendrogram_x_correct_witness :
    (compute_arbor_dendrogram tEx 4 dEx0).x [0, 1] = some 4 ∧
    (compute_arbor_dendrogram tEx 4 dEx0).x [] = some 3 := by
  have h := compute_arbor_dendrogram_x_correct tEx 4 dEx0 (fun p => rfl)
  constructor
  · have h1 := h.1 1 [0, 1] (by rfl)
    rw [h1]
    norm_num
  · have h2 := h.2 [] tEx 6 (by rfl)
      (by simp [tEx, Section.children])
      (by norm_num +decide [compute_arbor_dendrogram, get_arbor_leaves,
        get_subtree_leaves, get_subtree_leaves_list, assignLeafX,
        propagateAllLeaves, compute_dendrogram_x_coordinates_for_parents,
        subtreeAtRF, childXSum, updF, tEx, dEx0, Section.children,
        computeY_x_eq])
    rw [h2]
    norm_num [tEx, Section.children]

/-- C2: for every finite non-`None` arbor whose sections start with
`dendrogram_x = None`, after `compute_arbor_dendrogram(arbor, delta)`
returns, every section of the arbor (every leaf, every interior section
and the root) has a non-`None` `dendrogram_x`. -/
theorem compute_arbor_dendrogram_x_total (t : Section) (delta : ℚ)
    (s : DendroState) (h0 : ∀ p, s.x p = none) :
    ∀ p, (subtreeAtRF t p.reverse).isSome →
      ((compute_arbor_dendrogram t delta s).x p).isSome :=
  fun p hp => arborX_total t delta s p hp

/-- Witness for C2 on the concrete arbor `tEx`: the root, the interior
child and a deep leaf all end with a computed `dendrogram_x`. -/
theorem compute_arbor_dendrogram_x_total_witness :
    ((compute_arbor_dendrogram tEx 4 dEx0).x []).isSome = true ∧
    ((compute_arbor_dendrogram tEx 4 dEx0).x [1]).isSome = true ∧
    ((compute_arbor_dendrogram tEx 4 dEx0).x [1, 1]).isSome = true := by
  have h := compute_arbor_dendrogram_x_total tEx 4 dEx0 (fun p => rfl)
  exact ⟨h [] (by rfl), h [1] (by rfl), h [1, 1] (by rfl)⟩

/-- C3: `compute_dendrogram_y_coordinates_for_children(section)` sets,
for every section of the subtree rooted at its argument (including the
argument itself), `dendrogram_y` equal to that section's path length as
returned by `compute_path_length()`, and changes no other dendrogram
coordinate: the `dendrogram_x` map is untouched and the `dendrogram_y`
of every position outside the subtree is untouched. -/
theorem compute_dendrogram_y_coordinates_correct (node : Section)
    (pos : Pos) (s : DendroState) :
    (∀ q n, subtreeAtRF node q.reverse = some n →
      (compute_dendrogram_y_coordinates_for_children node pos s).y
        (q ++ pos) = some n.compute_path_length) ∧
    (compute_dendrogram_y_coordinates_for_children node pos s).x = s.x ∧
    (∀ p', (∀ q, (subtreeAtRF node q.reverse).isSome → p' ≠ q ++ pos) →
      (compute_dendrogram_y_coordinates_for_children node pos s).y p' =
        s.y p') :=
  ⟨fun q n h => computeY_y_correct node pos s q n h,
   computeY_x_eq node pos s,
   fun p' h => computeY_y_frame node pos s p' h⟩

/-- Witness for C3 on the concrete arbor `tEx`: the interior child at
position `[1]` gets `dendrogram_y = 2` (its path length), the root gets
`5`, the `dendrogram_x` map is unchanged, and a position outside the tree
keeps its `dendrogram_y`. -/
theorem compute_dendrogram_y_coordinates_correct_witness :
    (compute_dendrogram_y_coordinates_for_children tEx [] dEx0).y [1] =
      some 2 ∧
    (compute_dendrogram_y_coordinates_for_children tEx [] dEx0).y [] =
      some 5 ∧
    (compute_dendrogram_y_coordinates_for_children tEx [] dEx0).x = dEx0.x ∧
    (compute_dendrogram_y_coordinates_for_children tEx [] dEx0).y [7] =
      dEx0.y [7] := by
  have h := compute_dendrogram_y_coordinates_correct tEx [] dEx0
  refine ⟨?_, ?_, h.2.1, ?_⟩
  · have h1 := h.1 [1] (Section.mk 2 1 [Section.mk 3 1 [], Section.mk 4 1 []])
      (by rfl)
    simpa using h1
  · have h1 := h.1 [] tEx (by rfl)
    simpa using h1
  · exact h.2.2 [7] (fun q hq => by
      intro hcontra
      rw [List.append_nil] at hcontra
      subst hcontra
      revert hq
      decide)

theorem foldl_add_generalized :
    ∀ (l : List ℚ) (a : ℚ), l.foldl (fun acc x => acc + x) a = a + l.sum := by
  intro l
  induction l with
  | nil => intro a; simp
  | cons x xs ih =>
    intro a
    rw [List.foldl_cons, ih, List.sum_cons]
    ring

/-- C4: `compute_arbor_total_surface_area(arbor)` returns exactly the
sum of the per-section surface areas collected by applying
`compute_sections_surface_areas_from_segments` to every section of the
arbor via `apply_operation_to_arbor`, and returns `0.0` when that
traversal collects no sections. -/
theorem compute_arbor_total_surface_area_correct (arbor : Option Section) :
    compute_arbor_total_surface_area arbor =
      (collectSectionsSurfaceAreas arbor).sum ∧
    (collectSectionsSurfaceAreas arbor = [] →
      compute_arbor_total_surface_area arbor = 0) := by
  constructor
  · show (collectSectionsSurfaceAreas arbor).foldl (fun acc a => acc + a) 0 = _
    rw [foldl_add_generalized]
    ring
  · intro h
    show (collectSectionsSurfaceAreas arbor).foldl (fun acc a => acc + a) 0 = 0
    rw [h]
    rfl

/-- Witness for C4: a `None` arbor collects no sections and yields
`0.0`; on the concrete arbor `tEx` the result is the sum of the
collected areas. -/
theorem compute_arbor_total_surface_area_correct_witness :
    collectSectionsSurfaceAreas none = ([] : List ℚ) ∧
    compute_arbor_total_surface_area none = 0 ∧
    compute_arbor_total_surface_area (some tEx) =
      (collectSectionsSurfaceAreas (some tEx)).sum :=
  ⟨rfl, (compute_arbor_total_surface_area_correct none).2 rfl,
   (compute_arbor_total_surface_area_correct (some tEx)).1⟩

theorem ctpl_children_append (g : ℕ) (pre : String) (msi : ℕ) (hl : Bool)
    (mB : ℕ) :
    ∀ (cs : List Section) (acc : List PolyLine) (bo : ℕ),
      (∀ c ∈ cs, ∀ (acc' : List PolyLine) (bo' : ℕ),
        construct_tree_poly_lines_section g pre msi hl mB c acc' bo' =
          acc' ++ construct_tree_poly_lines_section g pre msi hl mB c [] bo') →
      construct_tree_poly_lines_children g pre msi hl mB cs acc bo =
        acc ++ construct_tree_poly_lines_children g pre msi hl mB cs [] bo := by
  intro cs
  induction cs with
  | nil =>
    intro acc bo _
    simp [construct_tree_poly_lines_children]
  | cons c rest ih =>
    intro acc bo h
    rw [construct_tree_poly_lines_children, construct_tree_poly_lines_children]
    rw [ih _ bo (fun c' hc' => h c' (by simp [hc']))]
    rw [h c (by simp) acc bo]
    conv_rhs => rw [ih _ bo (fun c' hc' => h c' (by simp [hc']))]
    rw [h c (by simp) [] bo]
    simp [List.append_assoc]

theorem ctpl_section_append (g : ℕ) (pre : String) (msi : ℕ) (hl : Bool)
    (mB : ℕ) (t : Section) :
    ∀ (acc : List PolyLine) (bo : ℕ),
      construct_tree_poly_lines_section g pre msi hl mB t acc bo =
        acc ++ construct_tree_poly_lines_section g pre msi hl mB t [] bo := by
  induction t using Section.inductionOn with
  | _ pl ar cs ih =>
    intro acc bo
    rw [construct_tree_poly_lines_section, construct_tree_poly_lines_section]
    by_cases hb : bo + 1 > mB
    · simp only [hb, if_true]
      simp
    · simp only [hb, if_false]
      rw [ctpl_children_append g pre msi hl mB cs _ (bo + 1)
        (fun c hc acc' bo' => ih c hc acc' bo')]
      conv_rhs => rw [ctpl_children_append g pre msi hl mB cs _ (bo + 1)
        (fun c hc acc' bo' => ih c hc acc' bo')]
      simp [List.append_assoc]

theorem ctpl_append (g : ℕ) (pre : String) (msi : ℕ) (hl : Bool) (mB : ℕ)
    (t : Option Section) (acc : List PolyLine) (bo : ℕ) :
    construct_tree_poly_lines g pre msi hl mB t acc bo =
      acc ++ construct_tree_poly_lines g pre msi hl mB t [] bo := by
  cases t with
  | none => simp [construct_tree_poly_lines]
  | some root =>
    rw [construct_tree_poly_lines, construct_tree_poly_lines]
    exact ctpl_section_append g pre msi hl mB root acc bo

theorem ctpl_children_mem (g : ℕ) (pre : String) (msi : ℕ) (hl : Bool)
    (mB : ℕ) (Q : PolyLine → ℕ → Prop) :
    ∀ (cs : List Section) (acc : List PolyLine) (bo : ℕ) (pl : PolyLine),
      (∀ c ∈ cs, ∀ (acc' : List PolyLine) (bo' : ℕ) (pl' : PolyLine),
        pl' ∈ construct_tree_poly_lines_section g pre msi hl mB c acc' bo' →
        pl' ∈ acc' ∨ Q pl' bo') →
      pl ∈ construct_tree_poly_lines_children g pre msi hl mB cs acc bo →
      pl ∈ acc ∨ Q pl bo := by
  intro cs
  induction cs with
  | nil =>
    intro acc bo pl _ h
    rw [construct_tree_poly_lines_children] at h
    exact Or.inl h
  | cons c rest ih =>
    intro acc bo pl htree h
    rw [construct_tree_poly_lines_children] at h
    rcases ih _ bo pl (fun c' hc' => htree c' (by simp [hc'])) h with h1 | h1
    · exact htree c (by simp) acc bo pl h1
    · exact Or.inr h1

theorem ctpl_section_mem (g : ℕ) (pre : String) (msi : ℕ) (hl : Bool)
    (mB : ℕ) (Q : PolyLine → ℕ → Prop)
    (hmono : ∀ pl bo, Q pl (bo + 1) → Q pl bo)
    (hnew : ∀ bo, bo + 1 ≤ mB →
      Q { nameTag := (pre, bo + 1),
          materialIndex := if hl then msi + (bo + 1) % 2 else g,
          branchingOrder := bo + 1 } bo)
    (t : Section) :
    ∀ (acc : List PolyLine) (bo : ℕ) (pl : PolyLine),
      pl ∈ construct_tree_poly_lines_section g pre msi hl mB t acc bo →
      pl ∈ acc ∨ Q pl bo := by
  induction t using Section.inductionOn with
  | _ plen ar cs ih =>
    intro acc bo pl h
    rw [construct_tree_poly_lines_section] at h
    by_cases hb : bo + 1 > mB
    · simp only [hb, if_true] at h
      exact Or.inl h
    · simp only [hb, if_false] at h
      have h2 := ctpl_children_mem g pre msi hl mB Q cs _ (bo + 1) pl
        (fun c hc acc' bo' pl' h' => ih c hc acc' bo' pl' h') h
      rcases h2 with h2 | h2
      · rcases List.mem_append.mp h2 with h3 | h3
        · exact Or.inl h3
        · have hpl : pl = { nameTag := (pre, bo + 1), materialIndex := if hl then msi + (bo + 1) % 2 else g, branchingOrder := bo + 1 } := by simpa using h3
          subst hpl
          exact Or.inr (hnew bo (by omega))
      · exact Or.inr (hmono pl bo h2)

/-- C5: in `DisconnectedSectionsBuilder.construct_tree_poly_lines`,
every poly-line appended for a section at branching order `b` (the root
section counting as `b = 1` when the builder starts the call at the
default `branching_order = 0`) has
`material_index = material_start_index + (b % 2)` when `highlight` is
`True`, so the material alternates between two consecutive indices with
tree depth, and has `material_index = GRAY_MATERIAL_INDEX` for every
section when `highlight` is `False`. -/
theorem construct_tree_poly_lines_material (g : ℕ) (pre : String)
    (msi : ℕ) (hl : Bool) (mB : ℕ) :
    (∀ (t : Option Section) (acc : List PolyLine) (bo : ℕ)
      (pl : PolyLine),
      pl ∈ construct_tree_poly_lines g pre msi hl mB t acc bo →
      pl ∈ acc ∨ pl.materialIndex =
        (if hl then msi + pl.branchingOrder % 2 else g)) ∧
    (∀ t : Section, 1 ≤ mB →
      ∃ rest, construct_tree_poly_lines g pre msi hl mB (some t) [] 0 =
        { nameTag := (pre, 1),
          materialIndex := if hl then msi + 1 % 2 else g,
          branchingOrder := 1 } :: rest) := by
  constructor
  · intro t acc bo pl h
    cases t with
    | none =>
      rw [construct_tree_poly_lines] at h
      exact Or.inl h
    | some root =>
      rw [construct_tree_poly_lines] at h
      exact ctpl_section_mem g pre msi hl mB
        (fun pl' _ => pl'.materialIndex =
          (if hl then msi + pl'.branchingOrder % 2 else g))
        (fun pl' bo' h' => h')
        (fun bo' _ => rfl)
        root acc bo pl h
  · intro t hmax
    cases t with
    | mk plen ar cs =>
      rw [construct_tree_poly_lines, construct_tree_poly_lines_section]
      have hb : ¬ (0 + 1 > mB) := by omega
      simp only [hb, if_false]
      rw [ctpl_children_append g pre msi hl mB cs _ (0 + 1)
        (fun c _ acc' bo' => ctpl_section_append g pre msi hl mB c acc' bo')]
      exact ⟨construct_tree_poly_lines_children g pre msi hl mB cs [] (0 + 1),
        rfl⟩

/-- Witness for C5: with `material_start_index = 10`, highlight on and
`max_branching_order = 2` on the concrete arbor `tEx`, a depth-2
poly-line carries material index `10 + 2 % 2 = 10`, and the first
appended poly-line is the root's with branching order 1 and material
index `10 + 1 % 2 = 11`. -/
theorem construct_tree_poly_lines_material_witness :
    ({ nameTag := ("basal", 2), materialIndex := 10, branchingOrder := 2 } : PolyLine).materialIndex =
      (if true then 10 + ({ nameTag := ("basal", 2), materialIndex := 10, branchingOrder := 2 } : PolyLine).branchingOrder % 2 else 8) ∧
    (∃ rest,
      construct_tree_poly_lines 8 "basal" 10 true 2 (some tEx) [] 0 =
        { nameTag := ("basal", 1), materialIndex := if true then 10 + 1 % 2 else 8, branchingOrder := 1 } :: rest) := by
  constructor
  · exact Or.resolve_left
      ((construct_tree_poly_lines_material 8 "basal" 10 true 2).1
        (some tEx) [] 0 _ (by decide)) (by decide)
  · exact (construct_tree_poly_lines_material 8 "basal" 10 true 2).2 tEx
      (by decide)

theorem ctpl_children_length (g : ℕ) (pre : String) (msi : ℕ) (hl : Bool)
    (mB : ℕ) :
    ∀ (cs : List Section) (acc : List PolyLine) (bo : ℕ),
      (∀ c ∈ cs, ∀ (acc' : List PolyLine) (bo' : ℕ),
        (construct_tree_poly_lines_section g pre msi hl mB c acc' bo').length =
          acc'.length + countSectionsUpToSection mB c bo') →
      (construct_tree_poly_lines_children g pre msi hl mB cs acc bo).length =
        acc.length + countSectionsUpToList mB cs bo := by
  intro cs
  induction cs with
  | nil =>
    intro acc bo _
    rw [construct_tree_poly_lines_children, countSectionsUpToList]
    omega
  | cons c rest ih =>
    intro acc bo h
    rw [construct_tree_poly_lines_children, countSectionsUpToList]
    rw [ih _ bo (fun c' hc' => h c' (by simp [hc']))]
    rw [h c (by simp) acc bo]
    omega

theorem ctpl_section_length (g : ℕ) (pre : String) (msi : ℕ) (hl : Bool)
    (mB : ℕ) (t : Section) :
    ∀ (acc : List PolyLine) (bo : ℕ),
      (construct_tree_poly_lines_section g pre msi hl mB t acc bo).length =
        acc.length + countSectionsUpToSection mB t bo := by
  induction t using Section.inductionOn with
  | _ plen ar cs ih =>
    intro acc bo
    rw [construct_tree_poly_lines_section, countSectionsUpToSection]
    by_cases hb : bo + 1 > mB
    · simp only [hb, if_true]
      omega
    · simp only [hb, if_false]
      rw [ctpl_children_length g pre msi hl mB cs _ (bo + 1)
        (fun c hc acc' bo' => ih c hc acc' bo')]
      simp only [List.length_append, List.length_cons, List.length_nil]
      omega

/-- C6: for every finite section tree and every `max_branching_order`,
`construct_tree_poly_lines` terminates (it is a total function of this
development), appends exactly one poly-line for each non-`None` section
whose branching order is at most `max_branching_order` (the length of
the produced list grows by exactly the count of such sections, where
pruning a section prunes its whole subtree), and neither appends a
poly-line for nor recurses into any section whose branching order
exceeds `max_branching_order` (every appended poly-line has branching
order above the entry order and at most the maximum). -/
theorem construct_tree_poly_lines_count (g : ℕ) (pre : String) (msi : ℕ)
    (hl : Bool) (mB : ℕ) :
    (∀ (t : Option Section) (acc : List PolyLine) (bo : ℕ),
      (construct_tree_poly_lines g pre msi hl mB t acc bo).length =
        acc.length + countSectionsUpTo mB t bo) ∧
    (∀ (t : Option Section) (acc : List PolyLine) (bo : ℕ)
      (pl : PolyLine),
      pl ∈ construct_tree_poly_lines g pre msi hl mB t acc bo →
      pl ∈ acc ∨ (bo < pl.branchingOrder ∧ pl.branchingOrder ≤ mB)) := by
  constructor
  · intro t acc bo
    cases t with
    | none =>
      rw [construct_tree_poly_lines, countSectionsUpTo]
      omega
    | some root =>
      rw [construct_tree_poly_lines, countSectionsUpTo]
      exact ctpl_section_length g pre msi hl mB root acc bo
  · intro t acc bo pl h
    cases t with
    | none =>
      rw [construct_tree_poly_lines] at h
      exact Or.inl h
    | some root =>
      rw [construct_tree_poly_lines] at h
      exact ctpl_section_mem g pre msi hl mB
        (fun pl' bo' => bo' < pl'.branchingOrder ∧ pl'.branchingOrder ≤ mB)
        (fun pl' bo' h' => ⟨by have h1 := h'.1; omega, h'.2⟩)
        (fun bo' hbo' => ⟨by show bo' < bo' + 1; omega, by show bo' + 1 ≤ mB; omega⟩)
        root acc bo pl h

/-- Witness for C6 on the concrete arbor `tEx` with
`max_branching_order = 2`: three sections are drawn (`tEx` has five, two
of branching order 3 get pruned), and a produced poly-line's branching
order lies in `(0, 2]`. -/
theorem construct_tree_poly_lines_count_witness :
    (construct_tree_poly_lines 8 "basal" 10 true 2 (some tEx) [] 0).length =
      List.length ([] : List PolyLine) + countSectionsUpTo 2 (some tEx) 0 ∧
    countSectionsUpTo 2 (some tEx) 0 = 3 ∧
    (0 < ({ nameTag := ("basal", 2), materialIndex := 10, branchingOrder := 2 } : PolyLine).branchingOrder ∧
      ({ nameTag := ("basal", 2), materialIndex := 10, branchingOrder := 2 } : PolyLine).branchingOrder ≤ 2) := by
  refine ⟨(construct_tree_poly_lines_count 8 "basal" 10 true 2).1
    (some tEx) [] 0, by decide, ?_⟩
  exact Or.resolve_left
    ((construct_tree_poly_lines_count 8 "basal" 10 true 2).2
      (some tEx) [] 0 _ (by decide)) (by decide)

/-- C7: the default `poly_lines_list=[]` of `construct_tree_poly_lines`
is a single list object created once at function definition time, so for
any two successive calls that both omit `poly_lines_list`, the second
call appends its poly-lines to the same list that still holds the first
call's poly-lines; calling the operation twice with the default argument
is not equivalent to calling it once on a fresh empty list (witnessed at
a concrete one-section tree, where the shared-default result holds two
poly-lines instead of one). -/
theorem construct_tree_poly_lines_default_shared (g : ℕ) (pre : String)
    (msi : ℕ) (hl : Bool) (mB : ℕ) :
    (∀ t1 t2 : Option Section,
      construct_tree_poly_lines_twice_shared_default g pre msi hl mB t1 t2 =
        construct_tree_poly_lines g pre msi hl mB t1 [] 0 ++
          construct_tree_poly_lines g pre msi hl mB t2 [] 0) ∧
    construct_tree_poly_lines_twice_shared_default 8 "sample" 0 true 1
        (some (Section.mk 0 0 [])) (some (Section.mk 0 0 [])) ≠
      construct_tree_poly_lines 8 "sample" 0 true 1
        (some (Section.mk 0 0 [])) [] 0 := by
  constructor
  · intro t1 t2
    rw [construct_tree_poly_lines_twice_shared_default]
    exact ctpl_append g pre msi hl mB t2
      (construct_tree_poly_lines g pre msi hl mB t1 [] 0) 0
  · intro h
    have hlen := congrArg List.length h
    simp only [construct_tree_poly_lines_twice_shared_default] at hlen
    rw [(construct_tree_poly_lines_count 8 "sample" 0 true 1).1,
        (construct_tree_poly_lines_count 8 "sample" 0 true 1).1] at hlen
    have hc : countSectionsUpTo 1 (some (Section.mk 0 0 [])) 0 = 1 := by
      decide
    rw [hc] at hlen
    simp at hlen

theorem builderOps_read_eq {μ ω : Type} (ops : List ((μ → μ) × (ω → ω)))
    (b : BuilderState) (rm ro : ℕ)
    (hrm : rm ≠ b.morphRef) (hro : ro ≠ b.optionsRef) :
    ∀ st : Store μ × Store ω,
      ((builderOps ops b st).1.read rm = st.1.read rm) ∧
      ((builderOps ops b st).2.read ro = st.2.read ro) := by
  induction ops with
  | nil => intro st; exact ⟨rfl, rfl⟩
  | cons fg rest ih =>
    intro st
    simp only [builderOps, List.foldl_cons] at *
    constructor
    · rw [(ih _).1]
      simp [builderOp, Store.write, Store.read, hrm]
    · rw [(ih _).2]
      simp [builderOp, Store.write, Store.read, hro]

/-- C8: `DisconnectedSectionsBuilder.__init__` stores deep copies of
both the morphology and the options arguments, so every subsequent
sequence of builder drawing operations (each mutating only the
builder's own copies) leaves the caller's original morphology object
and options object unchanged, including the radius updates and
resampling applied to the builder's copies. -/
theorem builder_preserves_caller_objects {μ ω : Type}
    (hm : Store μ) (ho : Store ω) (rm ro : ℕ)
    (hrm : rm < hm.next) (hro : ro < ho.next)
    (ops : List ((μ → μ) × (ω → ω))) :
    ((builderOps ops (DisconnectedSectionsBuilder_init hm ho rm ro).2.2
        ((DisconnectedSectionsBuilder_init hm ho rm ro).1,
         (DisconnectedSectionsBuilder_init hm ho rm ro).2.1)).1.read rm =
      hm.read rm) ∧
    ((builderOps ops (DisconnectedSectionsBuilder_init hm ho rm ro).2.2
        ((DisconnectedSectionsBuilder_init hm ho rm ro).1,
         (DisconnectedSectionsBuilder_init hm ho rm ro).2.1)).2.read ro =
      ho.read ro) := by
  have hb := builderOps_read_eq ops
    (DisconnectedSectionsBuilder_init hm ho rm ro).2.2 rm ro
    (by show rm ≠ hm.next; omega) (by show ro ≠ ho.next; omega)
    ((DisconnectedSectionsBuilder_init hm ho rm ro).1,
     (DisconnectedSectionsBuilder_init hm ho rm ro).2.1)
  constructor
  · rw [hb.1]
    show ((hm.alloc (hm.read rm)).1).read rm = hm.read rm
    simp only [Store.alloc, Store.read]
    rw [if_neg (by omega)]
  · rw [hb.2]
    show ((ho.alloc (ho.read ro)).1).read ro = ho.read ro
    simp only [Store.alloc, Store.read]
    rw [if_neg (by omega)]

/-- Witness for C8: two heaps with a single caller object each (values
`7` and `9`); after constructing the builder and running one drawing
operation that increments its morphology copy and doubles its options
copy, the caller's objects still read `7` and `9`. -/
theorem builder_preserves_caller_objects_witness :
    ((builderOps [((fun m => m + 1 : ℕ → ℕ), (fun o => o * 2 : ℕ → ℕ))]
        (DisconnectedSectionsBuilder_init (⟨1, fun _ => 7⟩ : Store ℕ)
          (⟨1, fun _ => 9⟩ : Store ℕ) 0 0).2.2
        ((DisconnectedSectionsBuilder_init (⟨1, fun _ => 7⟩ : Store ℕ)
          (⟨1, fun _ => 9⟩ : Store ℕ) 0 0).1,
         (DisconnectedSectionsBuilder_init (⟨1, fun _ => 7⟩ : Store ℕ)
          (⟨1, fun _ => 9⟩ : Store ℕ) 0 0).2.1)).1.read 0 = 7) ∧
    ((builderOps [((fun m => m + 1 : ℕ → ℕ), (fun o => o * 2 : ℕ → ℕ))]
        (DisconnectedSectionsBuilder_init (⟨1, fun _ => 7⟩ : Store ℕ)
          (⟨1, fun _ => 9⟩ : Store ℕ) 0 0).2.2
        ((DisconnectedSectionsBuilder_init (⟨1, fun _ => 7⟩ : Store ℕ)
          (⟨1, fun _ => 9⟩ : Store ℕ) 0 0).1,
         (DisconnectedSectionsBuilder_init (⟨1, fun _ => 7⟩ : Store ℕ)
          (⟨1, fun _ => 9⟩ : Store ℕ) 0 0).2.1)).2.read 0 = 9) := by
  have h := builder_preserves_caller_objects
    (⟨1, fun _ => 7⟩ : Store ℕ) (⟨1, fun _ => 9⟩ : Store ℕ) 0 0
    (by decide) (by decide)
    [((fun m => m + 1 : ℕ → ℕ), (fun o => o * 2 : ℕ → ℕ))]
  exact ⟨h.1, h.2⟩

theorem tryImportInstall_eq (pip : PyEnv → String → PyEnv) (env : PyEnv)
    (pkg : String) (h : env.importResult pkg ≠ .otherError) :
    tryImportInstall pip env pkg =
      .ok (afterBlock pip env pkg, blockEvents env pkg) := by
  cases he : env.importResult pkg with
  | ok => simp [tryImportInstall, afterBlock, blockEvents, he]
  | moduleNotFoundError => simp [tryImportInstall, afterBlock, blockEvents, he]
  | otherError => exact absurd he h

theorem tryImportInstall_other (pip : PyEnv → String → PyEnv)
    (env : PyEnv) (pkg : String) (h : env.importResult pkg = .otherError) :
    tryImportInstall pip env pkg = .error pkg := by
  simp [tryImportInstall, h]

theorem result_prologue_eq_finalImports (env3 : PyEnv)
    (evs : List String) :
    (match plainImport env3 "numpy" with
      | .error p => ((.error p : Except String Unit), evs)
      | .ok _ =>
        match plainImport env3 "seaborn" with
        | .error p => (.error p, evs)
        | .ok _ =>
          match plainImport env3 "matplotlib" with
          | .error p => (.error p, evs)
          | .ok _ =>
            match plainImport env3 "matplotlib" with
            | .error p => (.error p, evs)
            | .ok _ => (.ok (), evs)) = (finalImports env3, evs) := by
  rw [finalImports]
  cases h1 : plainImport env3 "numpy" with
  | error p => rfl
  | ok e1 =>
    cases h2 : plainImport env3 "seaborn" with
    | error p => rfl
    | ok e2 =>
      cases h3 : plainImport env3 "matplotlib" with
      | error p => rfl
      | ok e3 => rfl

/-- C9 counterexample: in `plot_per_arbor_range`, `pandas` is never
re-imported after its installation attempt, so with `pandas` the
only missing package and an installation that fixes nothing, the
function installs once and returns normally instead of raising as the
claim asserts. -/
theorem plot_per_arbor_range_pandas_not_retried :
    plot_per_arbor_range_prologue pipNoop envNoPandas =
      (.ok (), ["pandas"]) ∧
    (pipNoop envNoPandas "pandas").importResult "pandas" ≠ .ok := by
  exact ⟨rfl, by decide⟩

/-- C9 (amended): in `plot_per_arbor_result` and
`plot_per_arbor_range`, a `ModuleNotFoundError` while importing a
plotting dependency (numpy, matplotlib or seaborn; additionally pandas
in `plot_per_arbor_range`) triggers exactly one installation attempt
`nmv.utilities.pip_wheel(package_name=...)` for that package;
`numpy`, `seaborn` and `matplotlib` are then imported exactly once
more, so one of them still missing makes the function raise, while
`pandas` is never re-imported and a still-missing `pandas` does not by
itself make `plot_per_arbor_range` raise; any exception other than
`ModuleNotFoundError` propagates with no installation attempt for that
package.  The first two conjuncts characterise the whole run when no
try-block raises a foreign exception (events are exactly one entry per
missing package, outcome is `finalImports`, which never consults
pandas); the rest cover the propagation of foreign exceptions. -/
theorem plot_prologues_install_retry (pip : PyEnv → String → PyEnv)
    (env : PyEnv) :
    (env.importResult "numpy" ≠ .otherError →
     (afterBlock pip env "numpy").importResult "matplotlib" ≠ .otherError →
     (afterBlock pip (afterBlock pip env "numpy")
        "matplotlib").importResult "seaborn" ≠ .otherError →
      plot_per_arbor_result_prologue pip env =
        (finalImports (afterBlock pip (afterBlock pip
            (afterBlock pip env "numpy") "matplotlib") "seaborn"),
         blockEvents env "numpy" ++
           blockEvents (afterBlock pip env "numpy") "matplotlib" ++
           blockEvents (afterBlock pip (afterBlock pip env "numpy")
             "matplotlib") "seaborn")) ∧
    (env.importResult "numpy" ≠ .otherError →
     (afterBlock pip env "numpy").importResult "matplotlib" ≠ .otherError →
     (afterBlock pip (afterBlock pip env "numpy")
        "matplotlib").importResult "seaborn" ≠ .otherError →
     (afterBlock pip (afterBlock pip (afterBlock pip env "numpy")
        "matplotlib") "seaborn").importResult "pandas" ≠ .otherError →
      plot_per_arbor_range_prologue pip env =
        (finalImports (afterBlock pip (afterBlock pip (afterBlock pip
            (afterBlock pip env "numpy") "matplotlib") "seaborn") "pandas"),
         blockEvents env "numpy" ++
           blockEvents (afterBlock pip env "numpy") "matplotlib" ++
           blockEvents (afterBlock pip (afterBlock pip env "numpy")
             "matplotlib") "seaborn" ++
           blockEvents (afterBlock pip (afterBlock pip (afterBlock pip
             env "numpy") "matplotlib") "seaborn") "pandas")) ∧
    (env.importResult "numpy" = .otherError →
      plot_per_arbor_result_prologue pip env = (.error "numpy", []) ∧
      plot_per_arbor_range_prologue pip env = (.error "numpy", [])) ∧
    (env.importResult "numpy" ≠ .otherError →
     (afterBlock pip env "numpy").importResult "matplotlib" = .otherError →
      plot_per_arbor_result_prologue pip env =
        (.error "matplotlib", blockEvents env "numpy") ∧
      plot_per_arbor_range_prologue pip env =
        (.error "matplotlib", blockEvents env "numpy")) ∧
    (env.importResult "numpy" ≠ .otherError →
     (afterBlock pip env "numpy").importResult "matplotlib" ≠ .otherError →
     (afterBlock pip (afterBlock pip env "numpy")
        "matplotlib").importResult "seaborn" = .otherError →
      plot_per_arbor_result_prologue pip env =
        (.error "seaborn", blockEvents env "numpy" ++
          blockEvents (afterBlock pip env "numpy") "matplotlib") ∧
      plot_per_arbor_range_prologue pip env =
        (.error "seaborn", blockEvents env "numpy" ++
          blockEvents (afterBlock pip env "numpy") "matplotlib")) ∧
    (env.importResult "numpy" ≠ .otherError →
     (afterBlock pip env "numpy").importResult "matplotlib" ≠ .otherError →
     (afterBlock pip (afterBlock pip env "numpy")
        "matplotlib").importResult "seaborn" ≠ .otherError →
     (afterBlock pip (afterBlock pip (afterBlock pip env "numpy")
        "matplotlib") "seaborn").importResult "pandas" = .otherError →
      plot_per_arbor_range_prologue pip env =
        (.error "pandas", blockEvents env "numpy" ++
          blockEvents (afterBlock pip env "numpy") "matplotlib" ++
          blockEvents (afterBlock pip (afterBlock pip env "numpy")
            "matplotlib") "seaborn")) := by
  refine ⟨?_, ?_, ?_, ?_, ?_, ?_⟩
  · intro h1 h2 h3
    simp only [plot_per_arbor_result_prologue,
      tryImportInstall_eq pip env "numpy" h1,
      tryImportInstall_eq pip (afterBlock pip env "numpy") "matplotlib" h2,
      tryImportInstall_eq pip
        (afterBlock pip (afterBlock pip env "numpy") "matplotlib")
        "seaborn" h3]
    exact result_prologue_eq_finalImports _ _
  · intro h1 h2 h3 h4
    simp only [plot_per_arbor_range_prologue,
      tryImportInstall_eq pip env "numpy" h1,
      tryImportInstall_eq pip (afterBlock pip env "numpy") "matplotlib" h2,
      tryImportInstall_eq pip
        (afterBlock pip (afterBlock pip env "numpy") "matplotlib")
        "seaborn" h3,
      tryImportInstall_eq pip
        (afterBlock pip (afterBlock pip (afterBlock pip env "numpy")
          "matplotlib") "seaborn") "pandas" h4]
    exact result_prologue_eq_finalImports _ _
  · intro h1
    constructor
    · simp only [plot_per_arbor_result_prologue,
        tryImportInstall_other pip env "numpy" h1]
    · simp only [plot_per_arbor_range_prologue,
        tryImportInstall_other pip env "numpy" h1]
  · intro h1 h2
    constructor
    · simp only [plot_per_arbor_result_prologue,
        tryImportInstall_eq pip env "numpy" h1,
        tryImportInstall_other pip (afterBlock pip env "numpy")
          "matplotlib" h2]
    · simp only [plot_per_arbor_range_prologue,
        tryImportInstall_eq pip env "numpy" h1,
        tryImportInstall_other pip (afterBlock pip env "numpy")
          "matplotlib" h2]
  · intro h1 h2 h3
    constructor
    · simp only [plot_per_arbor_result_prologue,
        tryImportInstall_eq pip env "numpy" h1,
        tryImportInstall_eq pip (afterBlock pip env "numpy")
          "matplotlib" h2,
        tryImportInstall_other pip
          (afterBlock pip (afterBlock pip env "numpy") "matplotlib")
          "seaborn" h3]
    · simp only [plot_per_arbor_range_prologue,
        tryImportInstall_eq pip env "numpy" h1,
        tryImportInstall_eq pip (afterBlock pip env "numpy")
          "matplotlib" h2,
        tryImportInstall_other pip
          (afterBlock pip (afterBlock pip env "numpy") "matplotlib")
          "seaborn" h3]
  · intro h1 h2 h3 h4
    simp only [plot_per_arbor_range_prologue,
      tryImportInstall_eq pip env "numpy" h1,
      tryImportInstall_eq pip (afterBlock pip env "numpy") "matplotlib" h2,
      tryImportInstall_eq pip
        (afterBlock pip (afterBlock pip env "numpy") "matplotlib")
        "seaborn" h3,
      tryImportInstall_other pip
        (afterBlock pip (afterBlock pip (afterBlock pip env "numpy")
          "matplotlib") "seaborn") "pandas" h4]

/-- Witness for the amended C9: with only numpy missing and an
installation that fixes it, `plot_per_arbor_result` installs numpy
once and returns normally; with only pandas missing and an
installation that fixes nothing, `plot_per_arbor_range` installs
pandas once and still returns normally. -/
theorem plot_prologues_install_retry_witness :
    plot_per_arbor_result_prologue pipInstall envNoNumpy =
      (.ok (), ["numpy"]) ∧
    plot_per_arbor_range_prologue pipNoop envNoPandas =
      (.ok (), ["pandas"]) := by
  constructor
  · have h := (plot_prologues_install_retry pipInstall envNoNumpy).1
      (by decide) (by decide) (by decide)
    exact h.trans (by rfl)
  · have h := (plot_prologues_install_retry pipNoop envNoPandas).2.1
      (by decide) (by decide) (by decide) (by decide)
    exact h.trans (by rfl)

/-- C10: for every path whose HDF5 file opens successfully, after
`VasculatureLoader(dataset)` returns, the loader's `points_list`,
`segments_list`, `sections_list` and `connections_list` hold exactly
the file's `points`, `edges`, `chains/structure` and
`chains/connectivity` datasets respectively, loaded eagerly by the
constructor (construction itself performs the read) with the file
opened in read-only mode (the single h5py open call uses mode
`"r"`). -/
theorem VasculatureLoader_init_correct (fs : H5FS) (path : String)
    (d : H5File) (h : fs path = some d) :
    (VasculatureLoader_init fs path).1 =
      some (⟨path, d.points, d.edges, d.chainsStructure,
        d.chainsConnectivity⟩ : VasculatureLoader) ∧
    (VasculatureLoader_init fs path).2 = [(path, "r")] := by
  constructor
  · simp [VasculatureLoader_init, h5pyFile, h]
  · rfl

/-- Witness for C10 on a one-file filesystem. -/
theorem VasculatureLoader_init_correct_witness :
    (VasculatureLoader_init
      (fun p => if p = "data.h5"
        then some (⟨[[1]], [[2]], [[3]], [[4]]⟩ : H5File) else none)
      "data.h5").1 =
      some (⟨"data.h5", [[1]], [[2]], [[3]], [[4]]⟩ : VasculatureLoader) ∧
    (VasculatureLoader_init
      (fun p => if p = "data.h5"
        then some (⟨[[1]], [[2]], [[3]], [[4]]⟩ : H5File) else none)
      "data.h5").2 = [("data.h5", "r")] := by
  have h := VasculatureLoader_init_correct
    (fun p => if p = "data.h5"
      then some (⟨[[1]], [[2]], [[3]], [[4]]⟩ : H5File) else none)
    "data.h5" (⟨[[1]], [[2]], [[3]], [[4]]⟩ : H5File) (by rfl)
  exact ⟨h.1, h.2⟩

end NMV
